import Mathlib

/-!
Verification of the lot-accounting and trading-decision core of a
BTC auto-trading application.

The definitions below are shallow embeddings of the JavaScript source:
* `payment-tracker.js` — the lot ledger (`recordPayment`,
  `cleanupPaymentsAfterSale`, `calculatePaymentProfits`,
  `getPaymentSummary`, `sellIndividualPayment`);
* `profit-tracker.js` — baseline/milestone tracking (`recordBalance`,
  `checkProfitThreshold`);
* `timing-controller.js` — the timing gate (`isTradingAllowed`,
  `checkEmergencyOverride`);
* `btc-buyer.js` — `checkBuyingConditions`;
* the orchestrator's sell branch of `executeAutomatedTrading`
  (FIFO cost-basis walk and the profit sanity check).

JavaScript numbers are modelled as `Rat`; `undefined`/`null` values as
`Option`; JS truthiness of a numeric value (`null`/`undefined`/`0` are
falsy) is made explicit where the source relies on it.  Object mutation
by reference is modelled by rebuilding lists; payments carry a unique
`pid` standing for JS object identity.  Wall-clock values (`Date.now()`,
`toISOString()`) are explicit numeric parameters.
-/

/-- Status of a payment lot: the JS strings
\"active\" / \"partial\" / \"consumed\" / \"sold\". -/
inductive PStatus where
  | active
  | part
  | consumed
  | sold
deriving DecidableEq

/-- A payment (purchase lot) record, as created by
`PaymentTracker.recordPayment`.  `pid` models the generated unique id
(and hence JS object identity); `timestamp` models the ISO timestamp as
a number.  Display-only fields (`date`, sale metadata such as
`soldDate`) are projected away; no modelled function reads them. -/
structure Payment where
  pid : Nat
  timestamp : Nat
  gbpAmount : Rat
  btcAmount : Rat
  btcPrice : Rat
  ptype : String
  status : PStatus
deriving DecidableEq

/-- The dust threshold `0.00000001` from `cleanupPaymentsAfterSale`. -/
def dustThreshold : Rat := 1 / 100000000

/-- Comparison used by `activePayments.sort((a, b) => new Date(a.timestamp) - new Date(b.timestamp))`. -/
def byTimestamp (a b : Payment) : Prop := a.timestamp ≤ b.timestamp

instance : DecidableRel byTimestamp := fun a b => Nat.decLe a.timestamp b.timestamp

instance : IsTotal Payment byTimestamp := ⟨fun a b => Nat.le_total a.timestamp b.timestamp⟩

instance : IsTrans Payment byTimestamp := ⟨fun _ _ _ h1 h2 => Nat.le_trans h1 h2⟩

/-- The filter `payments.filter(p => p.status === 'active')`. -/
def activeLots (L : List Payment) : List Payment :=
  L.filter (fun p => decide (p.status = PStatus.active))

/-- The active payments sorted oldest-first (FIFO), as `cleanupPaymentsAfterSale` does.
JS `Array.prototype.sort` is stable; `List.insertionSort` with `≤` on
timestamps is the matching stable sort. -/
def sortActives (L : List Payment) : List Payment :=
  List.insertionSort byTimestamp (activeLots L)

/-- The new amount and status `cleanupPaymentsAfterSale` assigns to one
active lot, keyed by the lot's identity. -/
structure LotUpdate where
  pid : Nat
  btcAmount : Rat
  status : PStatus
deriving DecidableEq

/-- The FIFO walk of `cleanupPaymentsAfterSale` over the sorted active
lots, accumulating `runningTotal` (the `run` argument): lots that fit
within the balance stay active; the first lot that would exceed it is
truncated to the leftover and marked partial when the leftover is above
the dust threshold (otherwise marked consumed with its amount left
untouched); every later lot is marked consumed. -/
def fifoWalk (B : Rat) : Rat → List Payment → List LotUpdate
  | _, [] => []
  | run, p :: ps =>
    if run + p.btcAmount ≤ B then
      ⟨p.pid, p.btcAmount, PStatus.active⟩ :: fifoWalk B (run + p.btcAmount) ps
    else
      if dustThreshold < B - run then
        ⟨p.pid, B - run, PStatus.part⟩ ::
          ps.map (fun q => ⟨q.pid, q.btcAmount, PStatus.consumed⟩)
      else
        ⟨p.pid, p.btcAmount, PStatus.consumed⟩ ::
          ps.map (fun q => ⟨q.pid, q.btcAmount, PStatus.consumed⟩)

/-- Application of the walk's in-place mutations back to a payment:
the JS code mutates the active lot objects it filtered out of
`this.payments`; here the mutation is looked up by lot identity.
Non-active lots are never touched. -/
def applyUpdates (us : List LotUpdate) (p : Payment) : Payment :=
  if p.status = PStatus.active then
    match us.find? (fun u => decide (u.pid = p.pid)) with
    | some u => { p with btcAmount := u.btcAmount, status := u.status }
    | none => p
  else p

/-- `PaymentTracker.cleanupPaymentsAfterSale(remainingBtcBalance)`:
if the balance is `≤ 0` every active lot is marked consumed; otherwise
the active lots are sorted oldest-first and walked FIFO. -/
def cleanupPaymentsAfterSale (B : Rat) (L : List Payment) : List Payment :=
  if B ≤ 0 then
    L.map (fun p =>
      if p.status = PStatus.active then { p with status := PStatus.consumed } else p)
  else
    L.map (applyUpdates (fifoWalk B 0 (sortActives L)))

/-- Arguments of one `recordPayment` call (the generated id and
timestamp made explicit). -/
structure BuyRow where
  pid : Nat
  timestamp : Nat
  gbpAmount : Rat
  btcAmount : Rat
  btcPrice : Rat

/-- The payment object `recordPayment` constructs: a fresh active lot. -/
def mkPayment (r : BuyRow) : Payment :=
  ⟨r.pid, r.timestamp, r.gbpAmount, r.btcAmount, r.btcPrice, "auto-buy", PStatus.active⟩

/-- `PaymentTracker.recordPayment` appends a fresh active lot. -/
def recordPayment (r : BuyRow) (L : List Payment) : List Payment :=
  L ++ [mkPayment r]

/-- A ledger produced by a sequence of `recordPayment` calls starting
from the empty ledger. -/
def mkLedger (rows : List BuyRow) : List Payment :=
  rows.foldl (fun L r => recordPayment r L) []

theorem mkLedger_eq_map (rows : List BuyRow) : mkLedger rows = rows.map mkPayment := by
  have h : ∀ rs : List BuyRow, ∀ L : List Payment,
      rs.foldl (fun acc r => recordPayment r acc) L = L ++ rs.map mkPayment := by
    intro rs
    induction rs with
    | nil => intro L; simp
    | cons r rs ih =>
      intro L
      rw [List.foldl_cons, ih]
      simp [recordPayment]
  simpa [mkLedger] using h rows []

/-- Helper: evaluation of `cleanupPaymentsAfterSale` on a two-lot
ledger whose balance falls strictly inside the older lot. -/
theorem two_lot_cleanup_eval (g1 g2 r1 r2 a1 a2 B : Rat)
    (hB0 : 0 < B) (hBa : B < a1) (hdust : dustThreshold < B) :
    cleanupPaymentsAfterSale B
      [⟨0, 0, g1, a1, r1, "auto-buy", PStatus.active⟩,
       ⟨1, 1, g2, a2, r2, "auto-buy", PStatus.active⟩] =
      [⟨0, 0, g1, B, r1, "auto-buy", PStatus.part⟩,
       ⟨1, 1, g2, a2, r2, "auto-buy", PStatus.consumed⟩] := by
  have hnotle : ¬ B ≤ 0 := not_le.mpr hB0
  have hnfit : ¬ (a1 ≤ B) := not_le.mpr hBa
  simp [cleanupPaymentsAfterSale, hnotle, sortActives, activeLots, List.insertionSort,
    List.orderedInsert, byTimestamp, fifoWalk, hnfit, applyUpdates, hdust, List.find?]

/-- Claim C1 (amended): on a two-lot ledger (older lot first) with
`0 < B < a1` and `B` above the dust threshold,
`cleanupPaymentsAfterSale B` truncates the older lot to `B` and marks it
partial, and marks the newer lot consumed (amount unchanged) — it does
not leave the newer lot active. -/
theorem c1_cleanup_two_lots (g1 g2 r1 r2 a1 a2 B : Rat)
    (hB0 : 0 < B) (hBa : B < a1) (hdust : dustThreshold < B) :
    cleanupPaymentsAfterSale B
      [⟨0, 0, g1, a1, r1, "auto-buy", PStatus.active⟩,
       ⟨1, 1, g2, a2, r2, "auto-buy", PStatus.active⟩] =
      [⟨0, 0, g1, B, r1, "auto-buy", PStatus.part⟩,
       ⟨1, 1, g2, a2, r2, "auto-buy", PStatus.consumed⟩] :=
  two_lot_cleanup_eval g1 g2 r1 r2 a1 a2 B hB0 hBa hdust

/-- Claim C1 (counterexample to the claim as stated): on the spec's own
scenario (lots of 0.000617 and 0.000315 BTC, remaining balance 0.0005),
the reconciliation marks the newer lot consumed, not active as the
claim asserts. -/
theorem c1_counterexample :
    ((cleanupPaymentsAfterSale (5/10000)
      [⟨0, 0, 50, 617/1000000, 81000, "auto-buy", PStatus.active⟩,
       ⟨1, 1, 25, 315/1000000, 79500, "auto-buy", PStatus.active⟩]).map Payment.status)
      = [PStatus.part, PStatus.consumed] ∧ PStatus.consumed ≠ PStatus.active := by
  have h := two_lot_cleanup_eval 50 25 81000 79500 (617/1000000) (315/1000000) (5/10000)
    (by norm_num) (by norm_num) (by norm_num [dustThreshold])
  rw [h]
  constructor
  · rfl
  · intro hcontra
    exact PStatus.noConfusion hcontra

/-- Witness for `c1_cleanup_two_lots` at the spec scenario's numbers. -/
theorem c1_cleanup_two_lots_witness :
    (0:Rat) < 5/10000 ∧ (5/10000:Rat) < 617/1000000 ∧ dustThreshold < (5/10000:Rat) ∧
    cleanupPaymentsAfterSale (5/10000)
      [⟨0, 0, 50, 617/1000000, 81000, "auto-buy", PStatus.active⟩,
       ⟨1, 1, 25, 315/1000000, 79500, "auto-buy", PStatus.active⟩] =
      [⟨0, 0, 50, 5/10000, 81000, "auto-buy", PStatus.part⟩,
       ⟨1, 1, 25, 315/1000000, 79500, "auto-buy", PStatus.consumed⟩] :=
  ⟨by norm_num, by norm_num, by norm_num [dustThreshold],
    c1_cleanup_two_lots 50 25 81000 79500 (617/1000000) (315/1000000) (5/10000)
      (by norm_num) (by norm_num) (by norm_num [dustThreshold])⟩

/-- Positional form of the FIFO walk applied directly to a list of
(active) lots: the reference semantics the identity-keyed update map is
proved equal to. -/
def applyWalkDirect (B : Rat) : Rat → List Payment → List Payment
  | _, [] => []
  | run, p :: ps =>
    if run + p.btcAmount ≤ B then p :: applyWalkDirect B (run + p.btcAmount) ps
    else
      if dustThreshold < B - run then
        { p with btcAmount := B - run, status := PStatus.part } ::
          ps.map (fun q => { q with status := PStatus.consumed })
      else
        { p with status := PStatus.consumed } ::
          ps.map (fun q => { q with status := PStatus.consumed })

/-- The prefix of the sorted active lots that fits within the balance
during the FIFO walk. -/
def fitPrefix (B : Rat) : Rat → List Payment → List Payment
  | _, [] => []
  | run, p :: ps =>
    if run + p.btcAmount ≤ B then p :: fitPrefix B (run + p.btcAmount) ps else []

/-- The rest of the sorted active lots from the first one that no
longer fits. -/
def fitRest (B : Rat) : Rat → List Payment → List Payment
  | _, [] => []
  | run, p :: ps =>
    if run + p.btcAmount ≤ B then fitRest B (run + p.btcAmount) ps else p :: ps

/-- The update entry the walk produces for a lot it does not truncate. -/
def lotUpd (st : PStatus) (p : Payment) : LotUpdate := ⟨p.pid, p.btcAmount, st⟩

theorem fitPrefix_append_fitRest (B : Rat) :
    ∀ (run : Rat) (S : List Payment), fitPrefix B run S ++ fitRest B run S = S := by
  intro run S
  induction S generalizing run with
  | nil => simp [fitPrefix, fitRest]
  | cons p ps ih =>
    by_cases h : run + p.btcAmount ≤ B
    · simp [fitPrefix, fitRest, h, ih]
    · simp [fitPrefix, fitRest, h]

theorem applyUpdates_cons_ne (u : LotUpdate) (us : List LotUpdate) (p : Payment)
    (h : u.pid ≠ p.pid) : applyUpdates (u :: us) p = applyUpdates us p := by
  unfold applyUpdates
  by_cases hp : p.status = PStatus.active <;> simp [hp, List.find?, h]

theorem map_applyUpdates_cons_ne (u : LotUpdate) (us : List LotUpdate) (ps : List Payment)
    (h : ∀ q ∈ ps, u.pid ≠ q.pid) :
    ps.map (applyUpdates (u :: us)) = ps.map (applyUpdates us) :=
  List.map_congr_left (fun q hq => applyUpdates_cons_ne u us q (h q hq))

theorem find?_map_lotUpd (st : PStatus) (p : Payment) :
    ∀ S : List Payment, (S.map Payment.pid).Nodup → p ∈ S →
    (S.map (lotUpd st)).find? (fun u => decide (u.pid = p.pid)) = some (lotUpd st p) := by
  intro S
  induction S with
  | nil => intro _ hmem; simp at hmem
  | cons r S ih =>
    intro hnd hmem
    rcases List.mem_cons.mp hmem with heq | hmem2
    · subst heq
      simp [List.find?, lotUpd]
    · have hne : r.pid ≠ p.pid := by
        intro hcontra
        have : p.pid ∈ S.map Payment.pid := List.mem_map_of_mem Payment.pid hmem2
        rw [← hcontra] at this
        exact (List.nodup_cons.mp (by simpa using hnd)).1 this
      have hnd2 : (S.map Payment.pid).Nodup := (List.nodup_cons.mp (by simpa using hnd)).2
      simp [List.find?, lotUpd, hne, ih hnd2 hmem2]

theorem payment_set_status_eq (p : Payment) (st : PStatus) (h : p.status = st) :
    ({ p with status := st } : Payment) = p := by
  cases p
  simp at h
  simp [h]

theorem map_applyUpdates_consumed (ps : List Payment)
    (hnd : (ps.map Payment.pid).Nodup)
    (hact : ∀ q ∈ ps, q.status = PStatus.active) :
    ps.map (applyUpdates (ps.map (lotUpd PStatus.consumed))) =
      ps.map (fun q => { q with status := PStatus.consumed }) := by
  apply List.map_congr_left
  intro q hq
  unfold applyUpdates
  simp [hact q hq, find?_map_lotUpd PStatus.consumed q ps hnd hq, lotUpd]

theorem map_applyUpdates_fifoWalk (B : Rat) :
    ∀ (run : Rat) (S : List Payment), (S.map Payment.pid).Nodup →
      (∀ p ∈ S, p.status = PStatus.active) →
      S.map (applyUpdates (fifoWalk B run S)) = applyWalkDirect B run S := by
  intro run S
  induction S generalizing run with
  | nil => intro _ _; simp [fifoWalk, applyWalkDirect]
  | cons p ps ih =>
    intro hnd hact
    have hndp : p.pid ∉ ps.map Payment.pid := (List.nodup_cons.mp (by simpa using hnd)).1
    have hnd2 : (ps.map Payment.pid).Nodup := (List.nodup_cons.mp (by simpa using hnd)).2
    have hpact : p.status = PStatus.active := hact p (List.mem_cons_self p ps)
    have hactps : ∀ q ∈ ps, q.status = PStatus.active :=
      fun q hq => hact q (List.mem_cons_of_mem p hq)
    have hne : ∀ q ∈ ps, p.pid ≠ q.pid := by
      intro q hq hcontra
      exact hndp (hcontra ▸ List.mem_map_of_mem Payment.pid hq)
    by_cases hfit : run + p.btcAmount ≤ B
    · simp only [fifoWalk, if_pos hfit, applyWalkDirect, List.map_cons]
      congr 1
      · unfold applyUpdates
        simp [hpact, List.find?]
        exact payment_set_status_eq p PStatus.active hpact
      · rw [map_applyUpdates_cons_ne _ _ _ hne]
        exact ih (run + p.btcAmount) hnd2 hactps
    · by_cases hdust : dustThreshold < B - run
      · simp only [fifoWalk, if_neg hfit, if_pos hdust, applyWalkDirect, List.map_cons]
        congr 1
        · unfold applyUpdates
          simp [hpact, List.find?]
        · rw [map_applyUpdates_cons_ne _ _ _ hne]
          exact map_applyUpdates_consumed ps hnd2 hactps
      · simp only [fifoWalk, if_neg hfit, if_neg hdust, applyWalkDirect, List.map_cons]
        congr 1
        · unfold applyUpdates
          simp [hpact, List.find?]
        · rw [map_applyUpdates_cons_ne _ _ _ hne]
          exact map_applyUpdates_consumed ps hnd2 hactps

/-- Sum of the BTC amounts of the lots that still count toward the held
balance: those with status active or partial. -/
def remainingLotsBtc (L : List Payment) : Rat :=
  ((L.filter (fun p =>
    decide (p.status = PStatus.active ∨ p.status = PStatus.part))).map Payment.btcAmount).sum

theorem remainingLotsBtc_map_consumed (ps : List Payment) :
    remainingLotsBtc (ps.map (fun q => { q with status := PStatus.consumed })) = 0 := by
  induction ps with
  | nil => simp [remainingLotsBtc]
  | cons q ps ih => simpa [remainingLotsBtc, List.filter] using ih

theorem applyWalkDirect_remaining (B : Rat) :
    ∀ (run : Rat) (L : List Payment),
      (∀ p ∈ L, p.status = PStatus.active) → run ≤ B →
      B ≤ run + (L.map Payment.btcAmount).sum →
      |remainingLotsBtc (applyWalkDirect B run L) + run - B| ≤ dustThreshold := by
  intro run L
  induction L generalizing run with
  | nil =>
    intro _ hrun htot
    have hBr : run = B := le_antisymm hrun (by simpa using htot)
    simp [applyWalkDirect, remainingLotsBtc, hBr]
    norm_num [dustThreshold]
  | cons p ps ih =>
    intro hact hrun htot
    have hp : p.status = PStatus.active := hact p (List.mem_cons_self p ps)
    have hactps : ∀ q ∈ ps, q.status = PStatus.active :=
      fun q hq => hact q (List.mem_cons_of_mem p hq)
    by_cases hfit : run + p.btcAmount ≤ B
    · simp only [applyWalkDirect, if_pos hfit]
      have hstep :
          remainingLotsBtc (p :: applyWalkDirect B (run + p.btcAmount) ps) =
            p.btcAmount + remainingLotsBtc (applyWalkDirect B (run + p.btcAmount) ps) := by
        simp [remainingLotsBtc, List.filter, hp]
      rw [hstep]
      have htot2 : B ≤ (run + p.btcAmount) + (ps.map Payment.btcAmount).sum := by
        have := htot
        simp only [List.map_cons, List.sum_cons] at this
        linarith
      have hrec := ih (run + p.btcAmount) hactps hfit htot2
      have harr :
          p.btcAmount + remainingLotsBtc (applyWalkDirect B (run + p.btcAmount) ps) + run - B =
            remainingLotsBtc (applyWalkDirect B (run + p.btcAmount) ps) + (run + p.btcAmount) - B := by
        ring
      rw [harr]
      exact hrec
    · by_cases hdust : dustThreshold < B - run
      · simp only [applyWalkDirect, if_neg hfit, if_pos hdust]
        have hstep :
            remainingLotsBtc
              ({ p with btcAmount := B - run, status := PStatus.part } ::
                ps.map (fun q => { q with status := PStatus.consumed })) = B - run := by
          simp [remainingLotsBtc, List.filter]
          have := remainingLotsBtc_map_consumed ps
          simpa [remainingLotsBtc] using this
        rw [hstep]
        have : B - run + run - B = 0 := by ring
        rw [this]
        norm_num [dustThreshold]
      · simp only [applyWalkDirect, if_neg hfit, if_neg hdust]
        have hstep :
            remainingLotsBtc
              ({ p with status := PStatus.consumed } ::
                ps.map (fun q => { q with status := PStatus.consumed })) = 0 := by
          simp [remainingLotsBtc, List.filter]
          have := remainingLotsBtc_map_consumed ps
          simpa [remainingLotsBtc] using this
        rw [hstep]
        rw [zero_add, abs_of_nonpos (by linarith)]
        push_neg at hdust
        linarith

theorem mkLedger_all_active (rows : List BuyRow) :
    ∀ p ∈ mkLedger rows, p.status = PStatus.active := by
  intro p hp
  rw [mkLedger_eq_map] at hp
  obtain ⟨r, _, rfl⟩ := List.mem_map.mp hp
  rfl

theorem mkLedger_pid_nodup (rows : List BuyRow) (hnd : (rows.map BuyRow.pid).Nodup) :
    ((mkLedger rows).map Payment.pid).Nodup := by
  rw [mkLedger_eq_map, List.map_map]
  exact hnd

theorem mkLedger_sorted (rows : List BuyRow)
    (hts : (rows.map BuyRow.timestamp).Sorted (· ≤ ·)) :
    List.Sorted byTimestamp (mkLedger rows) := by
  rw [mkLedger_eq_map]
  have h1 : List.Pairwise (fun a b : BuyRow => a.timestamp ≤ b.timestamp) rows := by
    have := hts
    rw [List.Sorted, List.pairwise_map] at this
    exact this
  rw [List.Sorted, List.pairwise_map]
  exact h1

theorem cleanup_mkLedger_eq_direct (rows : List BuyRow) (B : Rat)
    (hnd : (rows.map BuyRow.pid).Nodup)
    (hts : (rows.map BuyRow.timestamp).Sorted (· ≤ ·))
    (hB0 : 0 < B) :
    cleanupPaymentsAfterSale B (mkLedger rows) = applyWalkDirect B 0 (mkLedger rows) := by
  have hact := mkLedger_all_active rows
  have hfilter : activeLots (mkLedger rows) = mkLedger rows :=
    List.filter_eq_self.mpr (fun p hp => by simp [hact p hp])
  have hsort : sortActives (mkLedger rows) = mkLedger rows := by
    rw [sortActives, hfilter]
    exact (mkLedger_sorted rows hts).insertionSort_eq
  rw [cleanupPaymentsAfterSale, if_neg (not_le.mpr hB0), hsort]
  exact map_applyUpdates_fifoWalk B 0 (mkLedger rows) (mkLedger_pid_nodup rows hnd) hact

/-- Claim C2: for a ledger built by `recordPayment` calls (fresh ids,
chronological timestamps) and a reconciliation balance `0 < B ≤` the
total active BTC, after `cleanupPaymentsAfterSale B` the BTC amounts of
the lots left active or partial sum to `B` within the dust tolerance
`1e-8`. -/
theorem c2_cleanup_balance_conservation (rows : List BuyRow) (B : Rat)
    (hnd : (rows.map BuyRow.pid).Nodup)
    (hts : (rows.map BuyRow.timestamp).Sorted (· ≤ ·))
    (hB0 : 0 < B) (hBtot : B ≤ (rows.map BuyRow.btcAmount).sum) :
    |remainingLotsBtc (cleanupPaymentsAfterSale B (mkLedger rows)) - B| ≤ dustThreshold := by
  rw [cleanup_mkLedger_eq_direct rows B hnd hts hB0]
  have hsum : ((mkLedger rows).map Payment.btcAmount).sum = (rows.map BuyRow.btcAmount).sum := by
    rw [mkLedger_eq_map, List.map_map]
    rfl
  have h := applyWalkDirect_remaining B 0 (mkLedger rows) (mkLedger_all_active rows)
    (le_of_lt hB0) (by rw [zero_add, hsum]; exact hBtot)
  simpa using h

/-- Witness for `c2_cleanup_balance_conservation` on the spec's
two-lot scenario. -/
theorem c2_cleanup_balance_conservation_witness :
    (([⟨0, 0, 50, 617/1000000, 81000⟩, ⟨1, 1, 25, 315/1000000, 79500⟩] :
        List BuyRow).map BuyRow.pid).Nodup ∧
    (0:Rat) < 5/10000 ∧
    (5/10000 : Rat) ≤ (([⟨0, 0, 50, 617/1000000, 81000⟩, ⟨1, 1, 25, 315/1000000, 79500⟩] :
        List BuyRow).map BuyRow.btcAmount).sum ∧
    |remainingLotsBtc (cleanupPaymentsAfterSale (5/10000)
        (mkLedger [⟨0, 0, 50, 617/1000000, 81000⟩, ⟨1, 1, 25, 315/1000000, 79500⟩])) -
      5/10000| ≤ dustThreshold :=
  ⟨by decide, by norm_num, by norm_num,
    c2_cleanup_balance_conservation
      [⟨0, 0, 50, 617/1000000, 81000⟩, ⟨1, 1, 25, 315/1000000, 79500⟩] (5/10000)
      (by decide) (by decide) (by norm_num) (by norm_num)⟩

theorem orderedInsert_eq_cons {α : Type} (r : α → α → Prop) [DecidableRel r] (a : α)
    (zs : List α) (h : ∀ c ∈ zs, r a c) : List.orderedInsert r a zs = a :: zs := by
  cases zs with
  | nil => rfl
  | cons c zs => simp [List.orderedInsert, h c (List.mem_cons_self c zs)]

theorem filter_orderedInsert {α : Type} (r : α → α → Prop) [DecidableRel r] [IsTrans α r]
    (q : α → Bool) (a : α) :
    ∀ ys : List α, List.Sorted r ys →
      (List.orderedInsert r a ys).filter q =
        if q a then List.orderedInsert r a (ys.filter q) else ys.filter q := by
  intro ys
  induction ys with
  | nil =>
    intro _
    by_cases hqa : q a <;> simp [List.orderedInsert, List.filter_cons, hqa]
  | cons b ys ih =>
    intro hsorted
    have hsys : List.Sorted r ys := hsorted.of_cons
    by_cases hab : r a b
    · rw [List.orderedInsert, if_pos hab]
      by_cases hqa : q a
      · by_cases hqb : q b
        · simp [List.filter_cons, hqa, hqb, List.orderedInsert, hab]
        · have hrel : ∀ c ∈ ys.filter q, r a c := by
            intro c hc
            have hcys : c ∈ ys := List.mem_of_mem_filter hc
            exact Trans.trans hab (List.rel_of_sorted_cons hsorted c hcys)
          simp [List.filter_cons, hqa, hqb, orderedInsert_eq_cons r a (ys.filter q) hrel]
      · simp [List.filter_cons, hqa]
    · rw [List.orderedInsert, if_neg hab, List.filter_cons, ih hsys]
      by_cases hqb : q b
      · by_cases hqa : q a
        · simp [hqb, hqa, List.filter_cons, List.orderedInsert, hab]
        · simp [hqb, hqa, List.filter_cons]
      · by_cases hqa : q a
        · simp [hqb, hqa, List.filter_cons]
        · simp [hqb, hqa, List.filter_cons]

theorem filter_insertionSort {α : Type} (r : α → α → Prop) [DecidableRel r]
    [IsTrans α r] [IsTotal α r] (q : α → Bool) (xs : List α) :
    (List.insertionSort r xs).filter q = List.insertionSort r (xs.filter q) := by
  induction xs with
  | nil => rfl
  | cons x xs ih =>
    rw [List.insertionSort,
      filter_orderedInsert r q x _ (List.sorted_insertionSort r xs)]
    by_cases hqx : q x
    · rw [if_pos hqx, ih, List.filter_cons, if_pos hqx, List.insertionSort]
    · rw [if_neg hqx, ih, List.filter_cons, if_neg hqx]

theorem mem_of_mem_fitPrefix {B run : Rat} {S : List Payment} {p : Payment}
    (h : p ∈ fitPrefix B run S) : p ∈ S := by
  rw [← fitPrefix_append_fitRest B run S]
  exact List.mem_append_left _ h

theorem mem_of_mem_fitRest {B run : Rat} {S : List Payment} {p : Payment}
    (h : p ∈ fitRest B run S) : p ∈ S := by
  rw [← fitPrefix_append_fitRest B run S]
  exact List.mem_append_right _ h

theorem find?_fifoWalk_of_mem_fitPrefix (B : Rat) :
    ∀ (run : Rat) (S : List Payment), (S.map Payment.pid).Nodup →
      ∀ p ∈ fitPrefix B run S,
        (fifoWalk B run S).find? (fun u => decide (u.pid = p.pid)) =
          some (lotUpd PStatus.active p) := by
  intro run S
  induction S generalizing run with
  | nil => intro _ p hp; simp [fitPrefix] at hp
  | cons q S ih =>
    intro hnd p hp
    have hndq : q.pid ∉ S.map Payment.pid := (List.nodup_cons.mp (by simpa using hnd)).1
    have hnd2 : (S.map Payment.pid).Nodup := (List.nodup_cons.mp (by simpa using hnd)).2
    by_cases hfit : run + q.btcAmount ≤ B
    · rw [fitPrefix, if_pos hfit] at hp
      rcases List.mem_cons.mp hp with heq | hp2
      · subst heq
        simp [fifoWalk, if_pos hfit, List.find?, lotUpd]
      · have hpS : p ∈ S := mem_of_mem_fitPrefix hp2
        have hne : q.pid ≠ p.pid := by
          intro hcontra
          exact hndq (hcontra ▸ List.mem_map_of_mem Payment.pid hpS)
        simp only [fifoWalk, if_pos hfit]
        rw [List.find?]
        simp only [hne, decide_eq_true_eq, if_neg hne]
        exact ih (run + q.btcAmount) hnd2 p hp2
    · rw [fitPrefix, if_neg hfit] at hp
      simp at hp

theorem find?_fifoWalk_of_mem_fitRest (B : Rat) :
    ∀ (run : Rat) (S : List Payment), (S.map Payment.pid).Nodup →
      ∀ p ∈ fitRest B run S,
        ∃ u, (fifoWalk B run S).find? (fun v => decide (v.pid = p.pid)) = some u ∧
          u.status ≠ PStatus.active := by
  intro run S
  induction S generalizing run with
  | nil => intro _ p hp; simp [fitRest] at hp
  | cons q S ih =>
    intro hnd p hp
    have hndq : q.pid ∉ S.map Payment.pid := (List.nodup_cons.mp (by simpa using hnd)).1
    have hnd2 : (S.map Payment.pid).Nodup := (List.nodup_cons.mp (by simpa using hnd)).2
    by_cases hfit : run + q.btcAmount ≤ B
    · rw [fitRest, if_pos hfit] at hp
      have hpS : p ∈ S := mem_of_mem_fitRest hp
      have hne : q.pid ≠ p.pid := by
        intro hcontra
        exact hndq (hcontra ▸ List.mem_map_of_mem Payment.pid hpS)
      obtain ⟨u, hu, hust⟩ := ih (run + q.btcAmount) hnd2 p hp
      refine ⟨u, ?_, hust⟩
      simp only [fifoWalk, if_pos hfit]
      rw [List.find?]
      simp only [hne, decide_eq_true_eq, if_neg hne]
      exact hu
    · rw [fitRest, if_neg hfit] at hp
      rcases List.mem_cons.mp hp with heq | hp2
      · subst heq
        by_cases hdust : dustThreshold < B - run
        · exact ⟨⟨p.pid, B - run, PStatus.part⟩,
            by simp [fifoWalk, if_neg hfit, if_pos hdust, List.find?], by simp⟩
        · exact ⟨⟨p.pid, p.btcAmount, PStatus.consumed⟩,
            by simp [fifoWalk, if_neg hfit, if_neg hdust, List.find?], by simp⟩
      · have hne : q.pid ≠ p.pid := by
          intro hcontra
          exact hndq (hcontra ▸ List.mem_map_of_mem Payment.pid hp2)
        refine ⟨lotUpd PStatus.consumed p, ?_, by simp [lotUpd]⟩
        by_cases hdust : dustThreshold < B - run
        · simp only [fifoWalk, if_neg hfit, if_pos hdust]
          rw [List.find?]
          simp only [hne, decide_eq_true_eq, if_neg hne]
          exact find?_map_lotUpd PStatus.consumed p S hnd2 hp2
        · simp only [fifoWalk, if_neg hfit, if_neg hdust]
          rw [List.find?]
          simp only [hne, decide_eq_true_eq, if_neg hne]
          exact find?_map_lotUpd PStatus.consumed p S hnd2 hp2

theorem fifoWalk_fitPrefix (B : Rat) :
    ∀ (run : Rat) (S : List Payment),
      fifoWalk B run (fitPrefix B run S) = (fitPrefix B run S).map (lotUpd PStatus.active) := by
  intro run S
  induction S generalizing run with
  | nil => simp [fitPrefix, fifoWalk]
  | cons q S ih =>
    by_cases hfit : run + q.btcAmount ≤ B
    · rw [fitPrefix, if_pos hfit]
      simp only [fifoWalk, if_pos hfit, List.map_cons]
      rw [ih (run + q.btcAmount)]
      rfl
    · rw [fitPrefix, if_neg hfit]
      simp [fifoWalk]

theorem applyUpdates_not_active (us : List LotUpdate) (p : Payment)
    (h : p.status ≠ PStatus.active) : applyUpdates us p = p := by
  unfold applyUpdates
  rw [if_neg h]

theorem activeLots_map_of_cases (L : List Payment) (f : Payment → Payment) (q : Payment → Bool)
    (h1 : ∀ p ∈ L, p.status ≠ PStatus.active → f p = p)
    (h2 : ∀ p ∈ L, p.status = PStatus.active → q p = true → f p = p)
    (h3 : ∀ p ∈ L, p.status = PStatus.active → q p = false → (f p).status ≠ PStatus.active) :
    activeLots (L.map f) = (activeLots L).filter q := by
  induction L with
  | nil => rfl
  | cons p L ih =>
    have ih2 := ih (fun x hx => h1 x (List.mem_cons_of_mem p hx))
      (fun x hx => h2 x (List.mem_cons_of_mem p hx))
      (fun x hx => h3 x (List.mem_cons_of_mem p hx))
    have hpmem : p ∈ p :: L := List.mem_cons_self p L
    by_cases hact : p.status = PStatus.active
    · by_cases hqp : q p
      · have hfp : f p = p := h2 p hpmem hact hqp
        simp only [List.map_cons, activeLots, List.filter_cons, hfp] at *
        simp [hact, hqp, ih2]
      · have hqp' : q p = false := by simpa using hqp
        have hfp := h3 p hpmem hact hqp'
        simp only [List.map_cons, activeLots, List.filter_cons] at *
        simp [hact, hqp', hfp, ih2]
    · have hfp : f p = p := h1 p hpmem hact
      simp only [List.map_cons, activeLots, List.filter_cons, hfp] at *
      simp [hact, ih2]

/-- Claim C3: `cleanupPaymentsAfterSale` is idempotent — a second call
with the same balance leaves every lot's amount and status unchanged.
The `Nodup` hypothesis models the uniqueness of generated payment ids
(JS object identity). -/
theorem c3_cleanup_idempotent (L : List Payment) (B : Rat)
    (hnd : (L.map Payment.pid).Nodup) :
    cleanupPaymentsAfterSale B (cleanupPaymentsAfterSale B L) = cleanupPaymentsAfterSale B L := by
  by_cases hB : B ≤ 0
  · have hg : cleanupPaymentsAfterSale B L =
        L.map (fun p =>
          if p.status = PStatus.active then { p with status := PStatus.consumed } else p) := by
      rw [cleanupPaymentsAfterSale, if_pos hB]
    rw [hg, cleanupPaymentsAfterSale, if_pos hB, List.map_map]
    apply List.map_congr_left
    intro p _
    by_cases hp : p.status = PStatus.active
    · simp [Function.comp, hp]
    · simp [Function.comp, hp]
  · push_neg at hB
    set S := sortActives L with hS
    set FP := fitPrefix B 0 S with hFP
    set q : Payment → Bool := fun p => decide (p ∈ FP) with hq
    have hperm : List.Perm S (activeLots L) := List.perm_insertionSort byTimestamp (activeLots L)
    have hndS : (S.map Payment.pid).Nodup := by
      have hsubl : List.Sublist (activeLots L) L := List.filter_sublist L
      have hnd1 : ((activeLots L).map Payment.pid).Nodup :=
        (hsubl.map Payment.pid).nodup hnd
      exact ((hperm.map Payment.pid).nodup_iff).mpr hnd1
    have hndSfull : S.Nodup := hndS.of_map
    have hsplit : FP ++ fitRest B 0 S = S := fitPrefix_append_fitRest B 0 S
    have hndapp : (FP ++ fitRest B 0 S).Nodup := by rw [hsplit]; exact hndSfull
    have hdisj : ∀ p ∈ fitRest B 0 S, p ∉ FP := by
      intro p hpR hpP
      exact (List.nodup_append.mp hndapp).2.2 hpP hpR
    have hndFP : (FP.map Payment.pid).Nodup := by
      have h2 : ((FP ++ fitRest B 0 S).map Payment.pid).Nodup := by
        rw [hsplit]; exact hndS
      rw [List.map_append] at h2
      exact (List.nodup_append.mp h2).1
    have hL2 : cleanupPaymentsAfterSale B L = L.map (applyUpdates (fifoWalk B 0 S)) := by
      rw [cleanupPaymentsAfterSale, if_neg (not_le.mpr hB), hS]
    have helem2 : ∀ p ∈ L, p.status = PStatus.active → q p = true →
        applyUpdates (fifoWalk B 0 S) p = p := by
      intro p _ hact hq2
      have hpFP : p ∈ FP := by simpa [hq] using hq2
      unfold applyUpdates
      rw [if_pos hact, find?_fifoWalk_of_mem_fitPrefix B 0 S hndS p hpFP]
      exact payment_set_status_eq p PStatus.active hact
    have helem3 : ∀ p ∈ L, p.status = PStatus.active → q p = false →
        (applyUpdates (fifoWalk B 0 S) p).status ≠ PStatus.active := by
      intro p hpL hact hq2
      have hpS : p ∈ S := by
        have hmemA : p ∈ activeLots L := List.mem_filter.mpr ⟨hpL, by simp [hact]⟩
        exact hperm.mem_iff.mpr hmemA
      have hpnotFP : p ∉ FP := by simpa [hq] using hq2
      have hpFR : p ∈ fitRest B 0 S := by
        rcases List.mem_append.mp (by rw [hsplit]; exact hpS) with h | h
        · exact absurd h hpnotFP
        · exact h
      obtain ⟨u, hu, hust⟩ := find?_fifoWalk_of_mem_fitRest B 0 S hndS p hpFR
      unfold applyUpdates
      rw [if_pos hact, hu]
      simpa using hust
    have hactive2 : activeLots (L.map (applyUpdates (fifoWalk B 0 S))) =
        (activeLots L).filter q :=
      activeLots_map_of_cases L _ q
        (fun p _ hp => applyUpdates_not_active _ p hp) helem2 helem3
    have hfilterS : S.filter q = FP := by
      conv_lhs => rw [← hsplit]
      rw [List.filter_append]
      have hfp1 : FP.filter q = FP := List.filter_eq_self.mpr (fun p hp => by simp [hq, hp])
      have hfp2 : (fitRest B 0 S).filter q = [] := by
        rw [List.filter_eq_nil_iff]
        intro p hp
        simp [hq, hdisj p hp]
      rw [hfp1, hfp2, List.append_nil]
    have hsort2 : sortActives (L.map (applyUpdates (fifoWalk B 0 S))) = FP := by
      rw [sortActives, hactive2, ← filter_insertionSort byTimestamp q (activeLots L)]
      exact hfilterS
    rw [hL2, cleanupPaymentsAfterSale, if_neg (not_le.mpr hB), hsort2, hFP,
      fifoWalk_fitPrefix B 0 S, ← hFP, List.map_map]
    apply List.map_congr_left
    intro p hpL
    show applyUpdates (FP.map (lotUpd PStatus.active)) (applyUpdates (fifoWalk B 0 S) p) =
      applyUpdates (fifoWalk B 0 S) p
    set x := applyUpdates (fifoWalk B 0 S) p with hx
    by_cases hxact : x.status = PStatus.active
    · have hxmem : x ∈ activeLots (L.map (applyUpdates (fifoWalk B 0 S))) :=
        List.mem_filter.mpr ⟨by rw [hx]; exact List.mem_map_of_mem _ hpL, by simp [hxact]⟩
      rw [hactive2] at hxmem
      have hxFP : x ∈ FP := by
        have := List.of_mem_filter hxmem
        simpa [hq] using this
      unfold applyUpdates
      rw [if_pos hxact, find?_map_lotUpd PStatus.active x FP hndFP hxFP]
      exact payment_set_status_eq x PStatus.active hxact
    · exact applyUpdates_not_active _ x hxact

/-- Witness for `c3_cleanup_idempotent` on a concrete two-lot ledger. -/
theorem c3_cleanup_idempotent_witness :
    ((([⟨0, 0, 50, 617/1000000, 81000, "auto-buy", PStatus.active⟩,
        ⟨1, 1, 25, 315/1000000, 79500, "auto-buy", PStatus.active⟩] :
        List Payment).map Payment.pid).Nodup) ∧
    cleanupPaymentsAfterSale (5/10000) (cleanupPaymentsAfterSale (5/10000)
      [⟨0, 0, 50, 617/1000000, 81000, "auto-buy", PStatus.active⟩,
       ⟨1, 1, 25, 315/1000000, 79500, "auto-buy", PStatus.active⟩]) =
      cleanupPaymentsAfterSale (5/10000)
      [⟨0, 0, 50, 617/1000000, 81000, "auto-buy", PStatus.active⟩,
       ⟨1, 1, 25, 315/1000000, 79500, "auto-buy", PStatus.active⟩] :=
  ⟨by decide, c3_cleanup_idempotent _ _ (by decide)⟩

/-- The FIFO cost-basis walk in the sell branch of
`executeAutomatedTrading`: over the active lots in ledger order it
takes `min(remainingSellAmount, payment.btcAmount)` from each lot and
attributes cost proportionally, stopping once the remaining amount is
`≤ 0`.  The loop only reads the ledger; it mutates nothing, which the
embedding reflects by being a plain function to the accumulated cost. -/
def costBasisWalk : Rat → List Payment → Rat
  | _, [] => 0
  | rem, p :: ps =>
    if rem ≤ 0 then 0
    else
      min rem p.btcAmount / p.btcAmount * p.gbpAmount +
        costBasisWalk (rem - min rem p.btcAmount) ps

/-- Cost basis for selling `amount` BTC, walking
`payments.filter(p => p.status === 'active')` in ledger order. -/
def costBasisFIFO (amount : Rat) (L : List Payment) : Rat :=
  costBasisWalk amount (activeLots L)

theorem costBasisWalk_total (ps : List Payment)
    (hpos : ∀ p ∈ ps, 0 < p.btcAmount) :
    costBasisWalk ((ps.map Payment.btcAmount).sum) ps = (ps.map Payment.gbpAmount).sum := by
  induction ps with
  | nil => simp [costBasisWalk]
  | cons p ps ih =>
    have hp : 0 < p.btcAmount := hpos p (List.mem_cons_self p ps)
    have hrest : ∀ q ∈ ps, 0 < q.btcAmount := fun q hq => hpos q (List.mem_cons_of_mem p hq)
    have hsumnn : 0 ≤ (ps.map Payment.btcAmount).sum := by
      apply List.sum_nonneg
      intro x hx
      obtain ⟨y, hy, rfl⟩ := List.mem_map.mp hx
      exact le_of_lt (hrest y hy)
    simp only [List.map_cons, List.sum_cons, costBasisWalk]
    have hnle : ¬ (p.btcAmount + (ps.map Payment.btcAmount).sum ≤ 0) := by
      push_neg
      linarith
    rw [if_neg hnle]
    have hmin : min (p.btcAmount + (ps.map Payment.btcAmount).sum) p.btcAmount = p.btcAmount :=
      min_eq_right (by linarith)
    rw [hmin, div_self (ne_of_gt hp), one_mul]
    have hrem : p.btcAmount + (ps.map Payment.btcAmount).sum - p.btcAmount =
        (ps.map Payment.btcAmount).sum := by ring
    rw [hrem, ih hrest]

/-- Claim C4: selling exactly the total active BTC returns the sum of
the active lots' fiat amounts as cost basis (full cost-basis
conservation), given the documented lot invariant that active lots have
positive BTC amounts. -/
theorem c4_cost_basis_conservation (L : List Payment)
    (hpos : ∀ p ∈ activeLots L, 0 < p.btcAmount) :
    costBasisFIFO (((activeLots L).map Payment.btcAmount).sum) L =
      ((activeLots L).map Payment.gbpAmount).sum :=
  costBasisWalk_total (activeLots L) hpos

/-- Witness for `c4_cost_basis_conservation` on the spec's scenario 1
ledger plus a second lot. -/
theorem c4_cost_basis_conservation_witness :
    (∀ p ∈ activeLots
      [⟨0, 0, 50, 617/1000000, 81000, "auto-buy", PStatus.active⟩,
       ⟨1, 1, 25, 315/1000000, 79500, "auto-buy", PStatus.active⟩], 0 < p.btcAmount) ∧
    costBasisFIFO (((activeLots
      [⟨0, 0, 50, 617/1000000, 81000, "auto-buy", PStatus.active⟩,
       ⟨1, 1, 25, 315/1000000, 79500, "auto-buy", PStatus.active⟩]).map Payment.btcAmount).sum)
      [⟨0, 0, 50, 617/1000000, 81000, "auto-buy", PStatus.active⟩,
       ⟨1, 1, 25, 315/1000000, 79500, "auto-buy", PStatus.active⟩] =
      ((activeLots
      [⟨0, 0, 50, 617/1000000, 81000, "auto-buy", PStatus.active⟩,
       ⟨1, 1, 25, 315/1000000, 79500, "auto-buy", PStatus.active⟩]).map Payment.gbpAmount).sum := by
  have hpos : ∀ p ∈ activeLots
      [⟨0, 0, 50, 617/1000000, 81000, "auto-buy", PStatus.active⟩,
       ⟨1, 1, 25, 315/1000000, 79500, "auto-buy", PStatus.active⟩], 0 < p.btcAmount := by
    intro p hp
    simp [activeLots, List.filter_cons] at hp
    rcases hp with rfl | rfl <;> norm_num
  exact ⟨hpos, c4_cost_basis_conservation _ hpos⟩

/-- Observable outcome of the sell branch of `executeAutomatedTrading`:
whether a Telegram sell confirmation was requested, whether the
invalid-profit condition was logged, and whether the sell action was
handed to the timing controller for scheduling. -/
structure SellBranchOutcome where
  confirmationRequested : Bool
  invalidProfitLogged : Bool
  sellActionScheduled : Bool
deriving DecidableEq

/-- The `actualProfit` the sell branch computes: net proceeds after the
0.83% selling fee minus the FIFO cost basis of the amount sold. -/
def sellActualProfit (sellAmount price : Rat) (L : List Payment) : Rat :=
  sellAmount * price - sellAmount * price * (83/10000) - costBasisFIFO sellAmount L

/-- The dispatch logic of the sell branch: under manual approval with a
notifier, the profit sanity check (`actualProfit > sellValue`) guards
the sell confirmation; without manual approval the sell action is
scheduled unconditionally. -/
def executeSellBranch (requireManualApproval hasNotifier : Bool)
    (sellAmount price : Rat) (L : List Payment) : SellBranchOutcome :=
  if requireManualApproval then
    if hasNotifier then
      if sellAmount * price < sellActualProfit sellAmount price L then
        ⟨false, true, false⟩
      else
        ⟨true, false, false⟩
    else ⟨false, false, false⟩
  else ⟨false, false, true⟩

/-- Claim C9 (amended): the computed-profit-exceeds-sale-value check
guards only the manual-approval sell confirmation — there it suppresses
the confirmation and logs the condition — while the automatic path
schedules the sell without any such check. -/
theorem c9_profit_sanity_check (sellAmount price : Rat) (L : List Payment)
    (hbad : sellAmount * price < sellActualProfit sellAmount price L) :
    executeSellBranch true true sellAmount price L = ⟨false, true, false⟩ ∧
    executeSellBranch false true sellAmount price L = ⟨false, false, true⟩ := by
  constructor
  · simp [executeSellBranch, hbad]
  · rfl

/-- Claim C9 (counterexample to the claim as stated): with manual
approval off, a ledger whose cost basis is corrupt (negative fiat
amount) makes computed profit exceed the sale value, yet the sell
action is still scheduled and nothing is logged — the action is not
aborted. -/
theorem c9_counterexample :
    (1 * 100 : Rat) < sellActualProfit 1 100
      [⟨0, 0, -100, 1, 100, "auto-buy", PStatus.active⟩] ∧
    executeSellBranch false true 1 100
      [⟨0, 0, -100, 1, 100, "auto-buy", PStatus.active⟩] = ⟨false, false, true⟩ := by
  constructor
  · norm_num [sellActualProfit, costBasisFIFO, activeLots, List.filter_cons, costBasisWalk]
  · rfl

/-- Witness for `c9_profit_sanity_check` at the counterexample's
corrupt-ledger input. -/
theorem c9_profit_sanity_check_witness :
    ((1 * 100 : Rat) < sellActualProfit 1 100
      [⟨0, 0, -100, 1, 100, "auto-buy", PStatus.active⟩]) ∧
    executeSellBranch true true 1 100
      [⟨0, 0, -100, 1, 100, "auto-buy", PStatus.active⟩] = ⟨false, true, false⟩ ∧
    executeSellBranch false true 1 100
      [⟨0, 0, -100, 1, 100, "auto-buy", PStatus.active⟩] = ⟨false, false, true⟩ := by
  have hbad : (1 * 100 : Rat) < sellActualProfit 1 100
      [⟨0, 0, -100, 1, 100, "auto-buy", PStatus.active⟩] := by
    norm_num [sellActualProfit, costBasisFIFO, activeLots, List.filter_cons, costBasisWalk]
  exact ⟨hbad, c9_profit_sanity_check 1 100 _ hbad⟩

/-- Per-lot profit view computed by `calculatePaymentProfits`.
The wall-clock `daysHeld` field and the constant
`sellingFeesPercent = 0.83` are projected away; no modelled function
reads them. -/
structure ProfitView where
  payment : Payment
  currentBtcPrice : Rat
  currentValue : Rat
  profit : Rat
  profitPercent : Rat
  priceChange : Rat
  priceChangePercent : Rat
  isProfit : Bool
  neededProfit : Rat
  neededProfitPercent : Rat
  priceNeeded : Rat
  priceNeededPercent : Rat
  saleNeeded : Rat
  sellingFees : Rat
  netProfit : Rat
deriving DecidableEq

/-- The per-lot body of `calculatePaymentProfits`. -/
def paymentProfitView (currentBtcPrice profitTarget : Rat) (p : Payment) : ProfitView :=
  let currentValue := p.btcAmount * currentBtcPrice
  let profit := currentValue - p.gbpAmount
  let neededProfit := max 0 (profitTarget - profit)
  let priceNeeded := (p.gbpAmount + profitTarget) / p.btcAmount
  let sellingFees := currentValue * (83/10000)
  { payment := p
    currentBtcPrice := currentBtcPrice
    currentValue := currentValue
    profit := profit
    profitPercent := profit / p.gbpAmount * 100
    priceChange := currentBtcPrice - p.btcPrice
    priceChangePercent := (currentBtcPrice - p.btcPrice) / p.btcPrice * 100
    isProfit := decide (0 < profit)
    neededProfit := neededProfit
    neededProfitPercent := if 0 < profitTarget then neededProfit / profitTarget * 100 else 0
    priceNeeded := priceNeeded
    priceNeededPercent :=
      if 0 < currentBtcPrice then (priceNeeded - currentBtcPrice) / currentBtcPrice * 100 else 0
    saleNeeded := p.gbpAmount + profitTarget + sellingFees
    sellingFees := sellingFees
    netProfit := profit - sellingFees }

/-- `PaymentTracker.calculatePaymentProfits`: profit views of the
active lots only. -/
def calculatePaymentProfits (currentBtcPrice profitTarget : Rat) (L : List Payment) :
    List ProfitView :=
  (activeLots L).map (paymentProfitView currentBtcPrice profitTarget)

/-- Summary statistics returned by `getPaymentSummary`; the zero
summary of the no-active-lots case carries an empty
`paymentsWithProfits` (the JS object simply lacks the key). -/
structure PaymentSummary where
  totalPayments : Nat
  totalGbpInvested : Rat
  totalBtcPurchased : Rat
  totalCurrentValue : Rat
  totalProfit : Rat
  totalProfitPercent : Rat
  averageBuyPrice : Rat
  profitablePayments : Nat
  lossPayments : Nat
  paymentsWithProfits : List ProfitView
deriving DecidableEq

/-- `PaymentTracker.getPaymentSummary` (profit target defaulted to 10,
as the JS call site does). -/
def getPaymentSummary (currentBtcPrice : Rat) (L : List Payment) : PaymentSummary :=
  let acts := activeLots L
  let pw := calculatePaymentProfits currentBtcPrice 10 L
  if acts.length = 0 then
    ⟨0, 0, 0, 0, 0, 0, 0, 0, 0, []⟩
  else
    let totalGbp := (acts.map Payment.gbpAmount).sum
    let totalBtc := (acts.map Payment.btcAmount).sum
    let totalCur := (pw.map ProfitView.currentValue).sum
    let totalProfit := totalCur - totalGbp
    let profitable := (pw.filter (fun v => v.isProfit)).length
    ⟨acts.length, totalGbp, totalBtc, totalCur, totalProfit,
     totalProfit / totalGbp * 100, totalGbp / totalBtc,
     profitable, acts.length - profitable, pw⟩

/-- Sale result of `sellIndividualPayment` (wall-clock `daysHeld`
projected away). -/
structure SaleResult where
  paymentId : Nat
  btcAmount : Rat
  originalCost : Rat
  saleValue : Rat
  sellingFees : Rat
  grossProfit : Rat
  netProfit : Rat
  profitPercent : Rat
  originalPrice : Rat
  salePrice : Rat
deriving DecidableEq

/-- The sale details `sellIndividualPayment` computes for the lot it
finds. -/
def saleResultFor (p : Payment) (currentBtcPrice : Rat) : SaleResult :=
  let currentValue := p.btcAmount * currentBtcPrice
  let profit := currentValue - p.gbpAmount
  let sellingFees := currentValue * (83/10000)
  ⟨p.pid, p.btcAmount, p.gbpAmount, currentValue, sellingFees, profit, profit - sellingFees,
   profit / p.gbpAmount * 100, p.btcPrice, currentBtcPrice⟩

/-- In-place mutation of the first matching active lot to status sold
(sale metadata fields are projected away from `Payment`). -/
def markSoldFirst (paymentId : Nat) : List Payment → List Payment
  | [] => []
  | p :: ps =>
    if p.pid = paymentId ∧ p.status = PStatus.active then
      { p with status := PStatus.sold } :: ps
    else p :: markSoldFirst paymentId ps

/-- `PaymentTracker.sellIndividualPayment`: finds the active lot with
the given id (throwing, i.e. `none`, when absent) and marks it sold. -/
def sellIndividualPayment (paymentId : Nat) (currentBtcPrice : Rat) (L : List Payment) :
    Option (SaleResult × List Payment) :=
  match L.find? (fun p => decide (p.pid = paymentId ∧ p.status = PStatus.active)) with
  | none => none
  | some p => some (saleResultFor p currentBtcPrice, markSoldFirst paymentId L)

/-- The ledger with all partial-status lots removed. -/
def stripPartLots (L : List Payment) : List Payment :=
  L.filter (fun p => decide (¬ p.status = PStatus.part))

theorem activeLots_stripPartLots (L : List Payment) :
    activeLots (stripPartLots L) = activeLots L := by
  rw [activeLots, stripPartLots, List.filter_filter]
  refine List.filter_congr ?_
  intro x _
  by_cases hact : x.status = PStatus.active
  · simp [hact]
  · simp [hact]

theorem find?_sellIndividual_stripPartLots (paymentId : Nat) (L : List Payment) :
    (stripPartLots L).find?
        (fun p => decide (p.pid = paymentId ∧ p.status = PStatus.active)) =
      L.find? (fun p => decide (p.pid = paymentId ∧ p.status = PStatus.active)) := by
  induction L with
  | nil => rfl
  | cons p L ih =>
    rw [stripPartLots, List.filter_cons]
    by_cases hp : p.status = PStatus.part
    · rw [if_neg (by simp [hp])]
      rw [List.find?_cons_of_neg _ (by simp [hp])]
      exact ih
    · rw [if_pos (by simp [hp])]
      by_cases hmatch : p.pid = paymentId ∧ p.status = PStatus.active
      · rw [List.find?_cons_of_pos _ (by simp [hmatch]),
          List.find?_cons_of_pos _ (by simp [hmatch])]
      · rw [List.find?_cons_of_neg _ (by simp [hmatch]),
          List.find?_cons_of_neg _ (by simp [hmatch])]
        exact ih

/-- Claim C10: lots whose status is partial are excluded from every
later computation — per-lot profit views, the portfolio summary, the
FIFO cost-basis walk, the FIFO reconciliation walk (and the partial lot
itself passes through reconciliation untouched), and individual
selling all behave as if the partial lots were absent. -/
theorem c10_partial_lots_excluded (L : List Payment) (cp t X B : Rat) (paymentId : Nat) :
    calculatePaymentProfits cp t (stripPartLots L) = calculatePaymentProfits cp t L ∧
    getPaymentSummary cp (stripPartLots L) = getPaymentSummary cp L ∧
    costBasisFIFO X (stripPartLots L) = costBasisFIFO X L ∧
    fifoWalk B 0 (sortActives (stripPartLots L)) = fifoWalk B 0 (sortActives L) ∧
    (∀ p ∈ L, p.status = PStatus.part → p ∈ cleanupPaymentsAfterSale B L) ∧
    (sellIndividualPayment paymentId cp (stripPartLots L)).map Prod.fst =
      (sellIndividualPayment paymentId cp L).map Prod.fst := by
  refine ⟨?_, ?_, ?_, ?_, ?_, ?_⟩
  · rw [calculatePaymentProfits, calculatePaymentProfits, activeLots_stripPartLots]
  · rw [getPaymentSummary, getPaymentSummary, calculatePaymentProfits, calculatePaymentProfits,
      activeLots_stripPartLots]
  · rw [costBasisFIFO, costBasisFIFO, activeLots_stripPartLots]
  · rw [sortActives, sortActives, activeLots_stripPartLots]
  · intro p hp hst
    have hnact : ¬ p.status = PStatus.active := by
      rw [hst]; intro h; exact PStatus.noConfusion h
    rw [cleanupPaymentsAfterSale]
    by_cases hB : B ≤ 0
    · rw [if_pos hB]
      have hmem := List.mem_map_of_mem
        (fun q => if q.status = PStatus.active then { q with status := PStatus.consumed } else q) hp
      simp only [if_neg hnact] at hmem
      exact hmem
    · rw [if_neg hB]
      have hmem := List.mem_map_of_mem (applyUpdates (fifoWalk B 0 (sortActives L))) hp
      rwa [applyUpdates_not_active _ p hnact] at hmem
  · rw [sellIndividualPayment, sellIndividualPayment, find?_sellIndividual_stripPartLots]
    cases L.find? (fun p => decide (p.pid = paymentId ∧ p.status = PStatus.active)) with
    | none => rfl
    | some p => rfl

/-- Witness for `c10_partial_lots_excluded` on a ledger holding one
partial and one active lot. -/
theorem c10_partial_lots_excluded_witness :
    calculatePaymentProfits 80000 10 (stripPartLots
      [⟨0, 0, 50, 3/10000, 81000, "auto-buy", PStatus.part⟩,
       ⟨1, 1, 25, 315/1000000, 79500, "auto-buy", PStatus.active⟩]) =
      calculatePaymentProfits 80000 10
      [⟨0, 0, 50, 3/10000, 81000, "auto-buy", PStatus.part⟩,
       ⟨1, 1, 25, 315/1000000, 79500, "auto-buy", PStatus.active⟩] ∧
    (⟨0, 0, 50, 3/10000, 81000, "auto-buy", PStatus.part⟩ : Payment) ∈
      cleanupPaymentsAfterSale (3/10000)
      [⟨0, 0, 50, 3/10000, 81000, "auto-buy", PStatus.part⟩,
       ⟨1, 1, 25, 315/1000000, 79500, "auto-buy", PStatus.active⟩] ∧
    (sellIndividualPayment 1 80000 (stripPartLots
      [⟨0, 0, 50, 3/10000, 81000, "auto-buy", PStatus.part⟩,
       ⟨1, 1, 25, 315/1000000, 79500, "auto-buy", PStatus.active⟩])).map Prod.fst =
      (sellIndividualPayment 1 80000
      [⟨0, 0, 50, 3/10000, 81000, "auto-buy", PStatus.part⟩,
       ⟨1, 1, 25, 315/1000000, 79500, "auto-buy", PStatus.active⟩]).map Prod.fst := by
  have h := c10_partial_lots_excluded
    [⟨0, 0, 50, 3/10000, 81000, "auto-buy", PStatus.part⟩,
     ⟨1, 1, 25, 315/1000000, 79500, "auto-buy", PStatus.active⟩]
    80000 10 (3/10000) (3/10000) 1
  exact ⟨h.1,
    h.2.2.2.2.1 _ (List.mem_cons_self _ _) rfl,
    h.2.2.2.2.2⟩

/-- Milestone mode of the profit tracker
(the JS strings "progressive" / "fixed" / "static"). -/
inductive MilestoneMode where
  | progressive
  | fixedInc
  | staticAmt
deriving DecidableEq

/-- Immutable part of the profit tracker configuration. -/
structure PTConfig where
  alertsEnabled : Bool
  milestoneAlert : Bool
  profitThreshold : Rat
  profitMilestones : List Rat
  milestoneMode : MilestoneMode
  fixedMilestoneIncrement : Rat
  staticMilestoneAmount : Rat

/-- A profit-history record.  Trade records carry `runningProfit`;
milestone records do not (the JS object simply lacks the key, modelled
as `none`).  Fields never read by the modelled functions
(timestamps, descriptions, the milestone record's `currentProfit`) are
projected away. -/
structure PRecord where
  ptype : String
  milestone : Option Rat
  runningProfit : Option Rat
deriving DecidableEq

/-- A balance-history record appended by `recordBalance`. -/
structure BalanceRecord where
  gbpBalance : Rat
  btcBalance : Rat
  btcPrice : Rat
  btcValueInGbp : Rat
  totalBalance : Rat
  profitLoss : Rat
deriving DecidableEq

/-- Mutable profit-tracker state: `config.initialBalance` (mutated in
place by the JS code) plus the two histories. -/
structure PTState where
  initialBalance : Option Rat
  profitHistory : List PRecord
  balanceHistory : List BalanceRecord
deriving DecidableEq

/-- JS truthiness of a nullable number: `null`/`undefined` and `0` are
falsy. -/
def truthyQ : Option Rat → Bool
  | none => false
  | some x => decide (x ≠ 0)

/-- `hasMilestoneBeenReached`: scans profit history for a milestone
record with this value. -/
def hasMilestoneBeenReached (st : PTState) (m : Rat) : Bool :=
  st.profitHistory.any (fun r => decide (r.ptype = "milestone" ∧ r.milestone = some m))

/-- `recordMilestone`: appends a milestone record (which carries no
`runningProfit`). -/
def recordMilestone (m : Rat) (st : PTState) : PTState :=
  { st with profitHistory := st.profitHistory ++ [⟨"milestone", some m, none⟩] }

/-- `checkProfitThreshold(currentProfit)`: the milestone section.
The profit/loss alert branches only print, so the state effect is the
milestone recording per mode: fixed fires the current bracket
`floor(profit/increment)*increment` if positive and unrecorded; static
fires whenever profit is at or above the static amount unless the most
recent profit-history record has `runningProfit` at or above it
(`undefined >= x` is false in JS, so a milestone record never counts);
progressive fires every listed milestone at or below the profit that
is not yet recorded, in list order. -/
def checkProfitThreshold (cfg : PTConfig) (currentProfit : Rat) (st : PTState) : PTState :=
  if !cfg.alertsEnabled then st
  else if cfg.milestoneAlert then
    match cfg.milestoneMode with
    | MilestoneMode.fixedInc =>
      if 0 < currentProfit then
        let cur := (⌊currentProfit / cfg.fixedMilestoneIncrement⌋ : Rat) *
          cfg.fixedMilestoneIncrement
        if 0 < cur ∧ ¬hasMilestoneBeenReached st cur then recordMilestone cur st else st
      else st
    | MilestoneMode.staticAmt =>
      if cfg.staticMilestoneAmount ≤ currentProfit then
        let wasAbove :=
          match st.profitHistory.getLast? with
          | some r =>
            match r.runningProfit with
            | some rp => decide (cfg.staticMilestoneAmount ≤ rp)
            | none => false
          | none => false
        if wasAbove then st else recordMilestone cfg.staticMilestoneAmount st
      else st
    | MilestoneMode.progressive =>
      cfg.profitMilestones.foldl (fun s m =>
        if m ≤ currentProfit ∧ ¬hasMilestoneBeenReached s m then recordMilestone m s else s) st
  else st

/-- `recordBalance(balances, source, currentBtcPrice)`: appends a
balance record; a falsy price argument falls back to the placeholder
`getCurrentBtcPrice() = 83775`; missing balance keys default to 0 (the
numeric arguments here).  If no truthy baseline exists and this is the
first record, the snapshot's total becomes the baseline and its profit
is forced to 0; finally the milestone check runs on the record's
profit. -/
def recordBalance (cfg : PTConfig) (gbpAvail btcAvail : Rat) (currentBtcPrice : Option Rat)
    (st : PTState) : PTState :=
  let btcPrice := if truthyQ currentBtcPrice then currentBtcPrice.getD 0 else 83775
  let btcValue := btcAvail * btcPrice
  let totalBalance := gbpAvail + btcValue
  let pl0 := if truthyQ st.initialBalance then totalBalance - st.initialBalance.getD 0 else 0
  let firstAndUnset := !truthyQ st.initialBalance && st.balanceHistory.isEmpty
  let pl := if firstAndUnset then 0 else pl0
  let newInitial := if firstAndUnset then some totalBalance else st.initialBalance
  let st1 : PTState :=
    { initialBalance := newInitial
      profitHistory := st.profitHistory
      balanceHistory := st.balanceHistory ++ [⟨gbpAvail, btcAvail, btcPrice, btcValue,
        totalBalance, pl⟩] }
  checkProfitThreshold cfg pl st1

/-- One `recordBalance` call's arguments: GBP available, BTC available,
and the optional current price. -/
structure BalanceRow where
  gbp : Rat
  btc : Rat
  price : Option Rat

/-- A sequence of `recordBalance` calls. -/
def runBalances (cfg : PTConfig) (rows : List BalanceRow) (st : PTState) : PTState :=
  rows.foldl (fun s r => recordBalance cfg r.gbp r.btc r.price s) st

/-- Total portfolio value a `recordBalance` call computes for its
arguments. -/
def totalOf (r : BalanceRow) : Rat :=
  r.gbp + r.btc * (if truthyQ r.price then r.price.getD 0 else 83775)

/-- The BTC price a `recordBalance` call uses for its arguments. -/
def priceOf (r : BalanceRow) : Rat :=
  if truthyQ r.price then r.price.getD 0 else 83775

theorem totalOf_eq (r : BalanceRow) : totalOf r = r.gbp + r.btc * priceOf r := rfl

theorem checkProfitThreshold_proj (cfg : PTConfig) (p : Rat) (st : PTState) :
    (checkProfitThreshold cfg p st).balanceHistory = st.balanceHistory ∧
    (checkProfitThreshold cfg p st).initialBalance = st.initialBalance := by
  have hfold : ∀ (ms : List Rat) (s : PTState),
      ((ms.foldl (fun s m =>
          if m ≤ p ∧ ¬hasMilestoneBeenReached s m then recordMilestone m s else s)
        s).balanceHistory = s.balanceHistory ∧
       (ms.foldl (fun s m =>
          if m ≤ p ∧ ¬hasMilestoneBeenReached s m then recordMilestone m s else s)
        s).initialBalance = s.initialBalance) := by
    intro ms
    induction ms with
    | nil => intro s; exact ⟨rfl, rfl⟩
    | cons m ms ih =>
      intro s
      rw [List.foldl_cons]
      by_cases h : m ≤ p ∧ ¬hasMilestoneBeenReached s m
      · rw [if_pos h]
        have := ih (recordMilestone m s)
        simpa [recordMilestone] using this
      · rw [if_neg h]
        exact ih s
  unfold checkProfitThreshold
  split
  · exact ⟨rfl, rfl⟩
  · split
    · split
      · dsimp only
        repeat' split
        all_goals exact ⟨rfl, rfl⟩
      · dsimp only
        repeat' split
        all_goals exact ⟨rfl, rfl⟩
      · exact hfold cfg.profitMilestones st
    · exact ⟨rfl, rfl⟩

theorem runBalances_truthy (cfg : PTConfig) (t0 : Rat) (ht0 : t0 ≠ 0) (rows : List BalanceRow) :
    ∀ st : PTState, st.initialBalance = some t0 →
      (runBalances cfg rows st).balanceHistory =
        st.balanceHistory ++ rows.map (fun r =>
          ⟨r.gbp, r.btc, priceOf r, r.btc * priceOf r, totalOf r, totalOf r - t0⟩) ∧
      (runBalances cfg rows st).initialBalance = some t0 := by
  induction rows with
  | nil => intro st h; exact ⟨by simp [runBalances], by simpa [runBalances] using h⟩
  | cons r rows ih =>
    intro st h
    have htr : truthyQ st.initialBalance = true := by
      rw [h]; simp [truthyQ, ht0]
    have hstep : recordBalance cfg r.gbp r.btc r.price st =
        checkProfitThreshold cfg (totalOf r - t0)
          { initialBalance := some t0
            profitHistory := st.profitHistory
            balanceHistory := st.balanceHistory ++
              [⟨r.gbp, r.btc, priceOf r, r.btc * priceOf r, totalOf r, totalOf r - t0⟩] } := by
      rw [recordBalance]
      simp only [htr, Bool.not_true, Bool.false_and, if_false, if_true, Bool.false_eq_true]
      rw [h]
      simp [priceOf, totalOf, Option.getD]
    have hrun : runBalances cfg (r :: rows) st =
        runBalances cfg rows (recordBalance cfg r.gbp r.btc r.price st) := rfl
    rw [hrun, hstep]
    have hproj := checkProfitThreshold_proj cfg (totalOf r - t0)
      { initialBalance := some t0
        profitHistory := st.profitHistory
        balanceHistory := st.balanceHistory ++
          [⟨r.gbp, r.btc, priceOf r, r.btc * priceOf r, totalOf r, totalOf r - t0⟩] }
    obtain ⟨hrec, hinit⟩ := ih _ hproj.2
    refine ⟨?_, hinit⟩
    rw [hrec, hproj.1]
    simp

/-- Claim C5 (counterexample to the claim as stated): with a
pre-configured baseline of 300, the very first snapshot (total 350)
records profit 50, not 0. -/
theorem c5_counterexample :
    ((recordBalance ⟨false, false, 10, [], MilestoneMode.progressive, 10, 10⟩
        350 0 (some 1) ⟨some 300, [], []⟩).balanceHistory.map BalanceRecord.profitLoss) =
      [50] ∧ (50 : Rat) ≠ 0 := by
  constructor
  · norm_num [recordBalance, checkProfitThreshold, truthyQ]
  · norm_num

/-- Claim C5 (amended): starting with no configured baseline and a
nonzero first total value, the first snapshot records profit 0, its
total becomes the baseline, and every later snapshot's profit is its
total value minus that baseline exactly. -/
theorem c5_profit_baseline (cfg : PTConfig) (r0 : BalanceRow) (rest : List BalanceRow)
    (ph : List PRecord) (h0 : totalOf r0 ≠ 0) :
    (runBalances cfg (r0 :: rest)
        ⟨none, ph, []⟩).balanceHistory.map BalanceRecord.profitLoss =
      0 :: rest.map (fun r => totalOf r - totalOf r0) := by
  have hstep : recordBalance cfg r0.gbp r0.btc r0.price ⟨none, ph, []⟩ =
      checkProfitThreshold cfg 0
        { initialBalance := some (totalOf r0)
          profitHistory := ph
          balanceHistory :=
            [⟨r0.gbp, r0.btc, priceOf r0, r0.btc * priceOf r0, totalOf r0, 0⟩] } := by
    rw [recordBalance]
    simp [truthyQ, priceOf, totalOf]
  have hrun : runBalances cfg (r0 :: rest) ⟨none, ph, []⟩ =
      runBalances cfg rest (recordBalance cfg r0.gbp r0.btc r0.price ⟨none, ph, []⟩) := rfl
  rw [hrun, hstep]
  have hproj := checkProfitThreshold_proj cfg 0
    { initialBalance := some (totalOf r0)
      profitHistory := ph
      balanceHistory := [⟨r0.gbp, r0.btc, priceOf r0, r0.btc * priceOf r0, totalOf r0, 0⟩] }
  obtain ⟨hrec, _⟩ := runBalances_truthy cfg (totalOf r0) h0 rest _ hproj.2
  rw [hrec, hproj.1]
  simp

/-- Witness for `c5_profit_baseline`: baseline 250, then total 275
gives profits [0, 25] (spec scenario 3). -/
theorem c5_profit_baseline_witness :
    totalOf ⟨250, 0, some 80000⟩ ≠ 0 ∧
    (runBalances ⟨false, false, 10, [], MilestoneMode.progressive, 10, 10⟩
        [⟨250, 0, some 80000⟩, ⟨275, 0, some 80000⟩]
        ⟨none, [], []⟩).balanceHistory.map BalanceRecord.profitLoss =
      0 :: ([⟨275, 0, some 80000⟩] : List BalanceRow).map
        (fun r => totalOf r - totalOf ⟨250, 0, some 80000⟩) := by
  have h0 : totalOf (⟨250, 0, some 80000⟩ : BalanceRow) ≠ 0 := by
    norm_num [totalOf, truthyQ]
  exact ⟨h0, c5_profit_baseline _ _ _ _ h0⟩

/-- Number of milestone events recorded for the value `m`. -/
def countMilestone (m : Rat) (st : PTState) : Nat :=
  st.profitHistory.countP (fun r => decide (r.ptype = "milestone" ∧ r.milestone = some m))

/-- A sequence of `checkProfitThreshold` calls (one per profit
observation). -/
def runChecks (cfg : PTConfig) (ps : List Rat) (st : PTState) : PTState :=
  ps.foldl (fun s p => checkProfitThreshold cfg p s) st

theorem reached_iff_count (st : PTState) (m : Rat) :
    hasMilestoneBeenReached st m = true ↔ 0 < countMilestone m st := by
  rw [hasMilestoneBeenReached, countMilestone, List.any_eq_true, List.countP_pos_iff]

theorem countMilestone_recordMilestone (m mr : Rat) (st : PTState) :
    countMilestone m (recordMilestone mr st) =
      countMilestone m st + (if mr = m then 1 else 0) := by
  simp only [countMilestone, recordMilestone, List.countP_append, List.countP_cons,
    List.countP_nil]
  by_cases h : mr = m <;> simp [h]

theorem fold_progressive_count (p M : Rat) :
    ∀ (ms : List Rat) (s : PTState),
      countMilestone M (ms.foldl (fun s m =>
        if m ≤ p ∧ ¬hasMilestoneBeenReached s m then recordMilestone m s else s) s) =
        if M ∈ ms ∧ M ≤ p ∧ countMilestone M s = 0 then 1 else countMilestone M s := by
  intro ms
  induction ms with
  | nil =>
    intro s
    rw [List.foldl_nil, if_neg]
    intro hcontra
    simp at hcontra
  | cons m ms ih =>
    intro s
    rw [List.foldl_cons]
    by_cases hm : m = M
    · subst hm
      by_cases hle : m ≤ p
      · by_cases hc0 : countMilestone m s = 0
        · have hnr : ¬hasMilestoneBeenReached s m = true := by
            rw [reached_iff_count]
            omega
          rw [if_pos ⟨hle, hnr⟩, ih]
          have hc1 : countMilestone m (recordMilestone m s) = 1 := by
            rw [countMilestone_recordMilestone, hc0, if_pos rfl]
          rw [hc1]
          rw [if_neg (by omega), if_pos ⟨List.mem_cons_self m ms, hle, hc0⟩]
        · have hr : hasMilestoneBeenReached s m = true := by
            rw [reached_iff_count]
            omega
          rw [if_neg (by simp [hr]), ih]
          rw [if_neg (by omega), if_neg (by omega)]
      · rw [if_neg (by intro h; exact hle h.1), ih]
        rw [if_neg (by intro h; exact hle h.2.1), if_neg (by intro h; exact hle h.2.1)]
    · have hcount : ∀ s1 : PTState,
          (if m ≤ p ∧ ¬hasMilestoneBeenReached s1 m then recordMilestone m s1 else s1) =
            recordMilestone m s1 ∨
          (if m ≤ p ∧ ¬hasMilestoneBeenReached s1 m then recordMilestone m s1 else s1) = s1 := by
        intro s1
        by_cases h : m ≤ p ∧ ¬hasMilestoneBeenReached s1 m
        · exact Or.inl (if_pos h)
        · exact Or.inr (if_neg h)
      have hsame : countMilestone M
          (if m ≤ p ∧ ¬hasMilestoneBeenReached s m then recordMilestone m s else s) =
          countMilestone M s := by
        rcases hcount s with h | h <;> rw [h]
        rw [countMilestone_recordMilestone, if_neg hm]
        simp
      rw [ih, hsame]
      by_cases hM2 : M ∈ ms ∧ M ≤ p ∧ countMilestone M s = 0
      · rw [if_pos hM2, if_pos ⟨List.mem_cons_of_mem m hM2.1, hM2.2⟩]
      · rw [if_neg hM2, if_neg (fun hc =>
          hM2 ⟨(List.mem_cons.mp hc.1).resolve_left (fun he => hm he.symm), hc.2⟩)]

theorem check_progressive_count (cfg : PTConfig)
    (hmode : cfg.milestoneMode = MilestoneMode.progressive)
    (hA : cfg.alertsEnabled = true) (hM : cfg.milestoneAlert = true)
    (M : Rat) (hmem : M ∈ cfg.profitMilestones) (p : Rat) (st : PTState) :
    countMilestone M (checkProfitThreshold cfg p st) =
      if M ≤ p ∧ countMilestone M st = 0 then 1 else countMilestone M st := by
  simp only [checkProfitThreshold, hA, hM, hmode, Bool.not_true, Bool.false_eq_true,
    if_false, if_true]
  rw [fold_progressive_count]
  by_cases h : M ≤ p ∧ countMilestone M st = 0
  · rw [if_pos ⟨hmem, h⟩, if_pos h]
  · rw [if_neg (fun hc => h ⟨hc.2.1, hc.2.2⟩), if_neg h]

theorem runChecks_progressive_count (cfg : PTConfig)
    (hmode : cfg.milestoneMode = MilestoneMode.progressive)
    (hA : cfg.alertsEnabled = true) (hM : cfg.milestoneAlert = true)
    (M : Rat) (hmem : M ∈ cfg.profitMilestones) :
    ∀ (ps : List Rat) (st : PTState),
      countMilestone M (runChecks cfg ps st) =
        if (∃ p ∈ ps, M ≤ p) ∧ countMilestone M st = 0 then 1
        else countMilestone M st := by
  intro ps
  induction ps with
  | nil =>
    intro st
    rw [runChecks, List.foldl_nil, if_neg]
    rintro ⟨⟨p, hp, _⟩, _⟩
    simp at hp
  | cons p ps ih =>
    intro st
    have hrun : runChecks cfg (p :: ps) st =
        runChecks cfg ps (checkProfitThreshold cfg p st) := rfl
    rw [hrun, ih, check_progressive_count cfg hmode hA hM M hmem p st]
    by_cases h1 : M ≤ p ∧ countMilestone M st = 0
    · rw [if_pos h1, if_neg (fun hc => Nat.one_ne_zero hc.2),
        if_pos ⟨⟨p, List.mem_cons_self p ps, h1.1⟩, h1.2⟩]
    · rw [if_neg h1]
      by_cases hc0 : countMilestone M st = 0
      · have hnle : ¬ M ≤ p := fun hle => h1 ⟨hle, hc0⟩
        by_cases hex : ∃ q ∈ ps, M ≤ q
        · obtain ⟨q, hq, hqle⟩ := hex
          rw [if_pos ⟨⟨q, hq, hqle⟩, hc0⟩,
            if_pos ⟨⟨q, List.mem_cons_of_mem p hq, hqle⟩, hc0⟩]
        · rw [if_neg (fun hc => hex hc.1), if_neg (fun hc => by
            obtain ⟨⟨q, hq, hqle⟩, _⟩ := hc
            rcases List.mem_cons.mp hq with rfl | hq2
            · exact hnle hqle
            · exact hex ⟨q, hq2, hqle⟩)]
      · rw [if_neg (fun hc => hc0 hc.2), if_neg (fun hc => hc0 hc.2)]

/-- The milestone bracket fixed-increment mode computes:
`Math.floor(profit / increment) * increment`. -/
def fixedBracket (cfg : PTConfig) (p : Rat) : Rat :=
  (⌊p / cfg.fixedMilestoneIncrement⌋ : Rat) * cfg.fixedMilestoneIncrement

theorem check_fixed_count (cfg : PTConfig)
    (hmode : cfg.milestoneMode = MilestoneMode.fixedInc)
    (hA : cfg.alertsEnabled = true) (hM : cfg.milestoneAlert = true)
    (M p : Rat) (st : PTState) :
    countMilestone M (checkProfitThreshold cfg p st) =
      if 0 < p ∧ 0 < fixedBracket cfg p ∧ fixedBracket cfg p = M ∧ countMilestone M st = 0
      then 1 else countMilestone M st := by
  simp only [checkProfitThreshold, hA, hM, hmode, Bool.not_true, Bool.false_eq_true,
    if_false, if_true]
  by_cases hp : 0 < p
  · rw [if_pos hp]
    have hb : (⌊p / cfg.fixedMilestoneIncrement⌋ : Rat) * cfg.fixedMilestoneIncrement =
        fixedBracket cfg p := rfl
    rw [hb]
    by_cases hcond : 0 < fixedBracket cfg p ∧ ¬hasMilestoneBeenReached st (fixedBracket cfg p)
    · rw [if_pos hcond, countMilestone_recordMilestone]
      by_cases hcM : fixedBracket cfg p = M
      · have hc0 : countMilestone M st = 0 := by
          have hnr := hcond.2
          rw [hcM, reached_iff_count] at hnr
          omega
        rw [if_pos hcM, hc0, if_pos ⟨hp, hcond.1, hcM, rfl⟩]
      · rw [if_neg hcM, if_neg (fun hc => hcM hc.2.2.1)]
        simp
    · rw [if_neg hcond, if_neg (by
        intro hc
        apply hcond
        refine ⟨hc.2.1, ?_⟩
        have hc0 := hc.2.2.2
        rw [hc.2.2.1, reached_iff_count]
        omega)]
  · rw [if_neg hp, if_neg (fun hc => hp hc.1)]

theorem runChecks_fixed_count (cfg : PTConfig)
    (hmode : cfg.milestoneMode = MilestoneMode.fixedInc)
    (hA : cfg.alertsEnabled = true) (hM : cfg.milestoneAlert = true) (M : Rat) :
    ∀ (ps : List Rat) (st : PTState),
      countMilestone M (runChecks cfg ps st) =
        if (∃ p ∈ ps, 0 < p ∧ 0 < fixedBracket cfg p ∧ fixedBracket cfg p = M) ∧
            countMilestone M st = 0
        then 1 else countMilestone M st := by
  intro ps
  induction ps with
  | nil =>
    intro st
    rw [runChecks, List.foldl_nil, if_neg]
    rintro ⟨⟨p, hp, _⟩, _⟩
    simp at hp
  | cons p ps ih =>
    intro st
    have hrun : runChecks cfg (p :: ps) st =
        runChecks cfg ps (checkProfitThreshold cfg p st) := rfl
    rw [hrun, ih, check_fixed_count cfg hmode hA hM M p st]
    by_cases h1 : 0 < p ∧ 0 < fixedBracket cfg p ∧ fixedBracket cfg p = M ∧
        countMilestone M st = 0
    · rw [if_pos h1, if_neg (fun hc => Nat.one_ne_zero hc.2),
        if_pos ⟨⟨p, List.mem_cons_self p ps, h1.1, h1.2.1, h1.2.2.1⟩, h1.2.2.2⟩]
    · rw [if_neg h1]
      by_cases hc0 : countMilestone M st = 0
      · have hnp : ¬ (0 < p ∧ 0 < fixedBracket cfg p ∧ fixedBracket cfg p = M) :=
          fun hq => h1 ⟨hq.1, hq.2.1, hq.2.2, hc0⟩
        by_cases hex : ∃ q ∈ ps, 0 < q ∧ 0 < fixedBracket cfg q ∧ fixedBracket cfg q = M
        · obtain ⟨q, hq, hqc⟩ := hex
          rw [if_pos ⟨⟨q, hq, hqc⟩, hc0⟩,
            if_pos ⟨⟨q, List.mem_cons_of_mem p hq, hqc⟩, hc0⟩]
        · rw [if_neg (fun hc => hex hc.1), if_neg (fun hc => by
            obtain ⟨⟨q, hq, hqc⟩, _⟩ := hc
            rcases List.mem_cons.mp hq with rfl | hq2
            · exact hnp hqc
            · exact hex ⟨q, hq2, hqc⟩)]
      · rw [if_neg (fun hc => hc0 hc.2), if_neg (fun hc => hc0 hc.2)]

theorem check_static_count (cfg : PTConfig)
    (hmode : cfg.milestoneMode = MilestoneMode.staticAmt)
    (hA : cfg.alertsEnabled = true) (hM : cfg.milestoneAlert = true)
    (p : Rat) (st : PTState)
    (hinv : ∀ r ∈ st.profitHistory, r.runningProfit = none) :
    countMilestone cfg.staticMilestoneAmount (checkProfitThreshold cfg p st) =
      countMilestone cfg.staticMilestoneAmount st +
        (if cfg.staticMilestoneAmount ≤ p then 1 else 0) ∧
    (∀ r ∈ (checkProfitThreshold cfg p st).profitHistory, r.runningProfit = none) := by
  simp only [checkProfitThreshold, hA, hM, hmode, Bool.not_true, Bool.false_eq_true,
    if_false, if_true]
  by_cases hle : cfg.staticMilestoneAmount ≤ p
  · rw [if_pos hle]
    have hwa : (match st.profitHistory.getLast? with
        | some r =>
          match r.runningProfit with
          | some rp => decide (cfg.staticMilestoneAmount ≤ rp)
          | none => false
        | none => false) = false := by
      cases hl : st.profitHistory.getLast? with
      | none => rfl
      | some r =>
        have hrmem : r ∈ st.profitHistory := by
          obtain ⟨hne, heq⟩ := List.mem_getLast?_eq_getLast
            (show r ∈ st.profitHistory.getLast? from by rw [Option.mem_def]; exact hl)
          rw [heq]
          exact List.getLast_mem hne
        have hrp : r.runningProfit = none := hinv r hrmem
        simp [hrp]
    rw [hwa]
    simp only [Bool.false_eq_true, if_false]
    constructor
    · rw [countMilestone_recordMilestone, if_pos rfl, if_pos hle]
    · intro r hr
      rw [recordMilestone] at hr
      simp only [List.mem_append, List.mem_singleton] at hr
      rcases hr with hr | rfl
      · exact hinv r hr
      · rfl
  · rw [if_neg hle]
    exact ⟨by rw [if_neg hle]; omega, hinv⟩

theorem runChecks_static_count (cfg : PTConfig)
    (hmode : cfg.milestoneMode = MilestoneMode.staticAmt)
    (hA : cfg.alertsEnabled = true) (hM : cfg.milestoneAlert = true) :
    ∀ (ps : List Rat) (st : PTState),
      (∀ r ∈ st.profitHistory, r.runningProfit = none) →
      countMilestone cfg.staticMilestoneAmount (runChecks cfg ps st) =
        countMilestone cfg.staticMilestoneAmount st +
          ps.countP (fun p => decide (cfg.staticMilestoneAmount ≤ p)) := by
  intro ps
  induction ps with
  | nil => intro st _; simp [runChecks]
  | cons p ps ih =>
    intro st hinv
    have hrun : runChecks cfg (p :: ps) st =
        runChecks cfg ps (checkProfitThreshold cfg p st) := rfl
    obtain ⟨hcount, hinv2⟩ := check_static_count cfg hmode hA hM p st hinv
    rw [hrun, ih _ hinv2, hcount, List.countP_cons]
    by_cases hle : cfg.staticMilestoneAmount ≤ p
    · simp [hle]
      omega
    · simp [hle]

/-- Claim C6 (amended): with milestone alerts enabled —
progressive mode records exactly one event for a listed, not yet
recorded milestone `M` iff some checked profit reaches `M`;
fixed mode records exactly one event for `M` iff some checked positive
profit has bracket `floor(p/increment)*increment = M > 0` (milestone
values jumped over without a check in their bracket are never
recorded); static mode (with an initially empty profit history) records
one event per check whose profit is at or above the static value, which
on the claim's scenario of N separated crossings with a single check
each yields exactly N events. -/
theorem c6_milestone_counts :
    (∀ (cfg : PTConfig) (ps : List Rat) (st : PTState) (M : Rat),
      cfg.alertsEnabled = true → cfg.milestoneAlert = true →
      cfg.milestoneMode = MilestoneMode.progressive → M ∈ cfg.profitMilestones →
      countMilestone M st = 0 →
      countMilestone M (runChecks cfg ps st) = if ∃ p ∈ ps, M ≤ p then 1 else 0) ∧
    (∀ (cfg : PTConfig) (ps : List Rat) (st : PTState) (M : Rat),
      cfg.alertsEnabled = true → cfg.milestoneAlert = true →
      cfg.milestoneMode = MilestoneMode.fixedInc →
      countMilestone M st = 0 →
      countMilestone M (runChecks cfg ps st) =
        if ∃ p ∈ ps, 0 < p ∧ 0 < fixedBracket cfg p ∧ fixedBracket cfg p = M
        then 1 else 0) ∧
    (∀ (cfg : PTConfig) (ps : List Rat) (ib : Option Rat) (bh : List BalanceRecord),
      cfg.alertsEnabled = true → cfg.milestoneAlert = true →
      cfg.milestoneMode = MilestoneMode.staticAmt →
      countMilestone cfg.staticMilestoneAmount (runChecks cfg ps ⟨ib, [], bh⟩) =
        ps.countP (fun p => decide (cfg.staticMilestoneAmount ≤ p))) := by
  refine ⟨?_, ?_, ?_⟩
  · intro cfg ps st M hA hM hmode hmem hc0
    rw [runChecks_progressive_count cfg hmode hA hM M hmem ps st]
    by_cases hex : ∃ p ∈ ps, M ≤ p
    · rw [if_pos ⟨hex, hc0⟩, if_pos hex]
    · rw [if_neg (fun hc => hex hc.1), if_neg hex, hc0]
  · intro cfg ps st M hA hM hmode hc0
    rw [runChecks_fixed_count cfg hmode hA hM M ps st]
    by_cases hex : ∃ p ∈ ps, 0 < p ∧ 0 < fixedBracket cfg p ∧ fixedBracket cfg p = M
    · rw [if_pos ⟨hex, hc0⟩, if_pos hex]
    · rw [if_neg (fun hc => hex hc.1), if_neg hex, hc0]
  · intro cfg ps ib bh hA hM hmode
    have h := runChecks_static_count cfg hmode hA hM ps ⟨ib, [], bh⟩ (by intro r hr; simp at hr)
    rw [h]
    simp [countMilestone]

/-- Claim C6 (counterexample to the claim as stated): in fixed mode
with increment 10, the monotone profit sequence [5, 25] crosses the
milestone value 10 once, yet records zero milestone events for 10 (the
single event fired is for the bracket 20). -/
theorem c6_counterexample :
    countMilestone 10 (runChecks ⟨true, true, 10, [], MilestoneMode.fixedInc, 10, 10⟩
      [5, 25] ⟨none, [], []⟩) = 0 ∧ (5 : Rat) < 10 ∧ (10 : Rat) ≤ 25 := by
  refine ⟨?_, by norm_num, by norm_num⟩
  rw [runChecks_fixed_count ⟨true, true, 10, [], MilestoneMode.fixedInc, 10, 10⟩
    rfl rfl rfl 10 [5, 25] ⟨none, [], []⟩]
  have hb5 : fixedBracket ⟨true, true, 10, [], MilestoneMode.fixedInc, 10, 10⟩ 5 = 0 := by
    rw [fixedBracket]
    have : ⌊(5 : Rat) / 10⌋ = 0 := by
      rw [Int.floor_eq_iff]
      norm_num
    rw [this]
    norm_num
  have hb25 : fixedBracket ⟨true, true, 10, [], MilestoneMode.fixedInc, 10, 10⟩ 25 = 20 := by
    rw [fixedBracket]
    have : ⌊(25 : Rat) / 10⌋ = 2 := by
      rw [Int.floor_eq_iff]
      norm_num
    rw [this]
    norm_num
  rw [if_neg]
  · rfl
  · rintro ⟨⟨p, hp, hpos, hbpos, hbeq⟩, -⟩
    rcases List.mem_cons.mp hp with rfl | hp2
    · rw [hb5] at hbpos
      exact lt_irrefl 0 hbpos
    · rcases List.mem_cons.mp hp2 with rfl | hp3
      · rw [hb25] at hbeq
        norm_num at hbeq
      · simp at hp3

/-- Witness for `c6_milestone_counts`: progressive mode with milestone
list [10] on checks [5, 12] records one event for 10; static mode with
value 10 on the spec's scenario-4 checks [5, 12, 3, 11] records one
event per check at or above 10. -/
theorem c6_milestone_counts_witness :
    countMilestone 10 (runChecks ⟨true, true, 10, [10], MilestoneMode.progressive, 10, 10⟩
      [5, 12] ⟨none, [], []⟩) = 1 ∧
    countMilestone 10 (runChecks ⟨true, true, 10, [], MilestoneMode.staticAmt, 10, 10⟩
      [5, 12, 3, 11] ⟨none, [], []⟩) =
      ([5, 12, 3, 11] : List Rat).countP (fun p => decide ((10 : Rat) ≤ p)) := by
  constructor
  · have h := c6_milestone_counts.1 ⟨true, true, 10, [10], MilestoneMode.progressive, 10, 10⟩
      [5, 12] ⟨none, [], []⟩ 10 rfl rfl rfl (by simp) (by rfl)
    rw [h, if_pos ⟨12, by simp, by norm_num⟩]
  · exact c6_milestone_counts.2.2 ⟨true, true, 10, [], MilestoneMode.staticAmt, 10, 10⟩
      [5, 12, 3, 11] none [] rfl rfl rfl

/-- Emergency-override configuration of the timing controller. -/
structure EOConfig where
  enabled : Bool
  priceJumpThreshold : Rat
  allowSellOnly : Bool

/-- Timing controller configuration (trading hours, weekend avoidance,
emergency override).  Delay/hesitation settings are irrelevant to the
gate decision and omitted. -/
structure TCConfig where
  enabled : Bool
  thEnabled : Bool
  thStart : Nat
  thEnd : Nat
  avoidWeekends : Bool
  emergencyOverride : EOConfig

/-- The wall clock as the gate reads it: local hour and day of week
(0 = Sunday … 6 = Saturday). -/
structure Clock where
  hour : Nat
  day : Nat

/-- `TimingController.isWithinTradingHours`. -/
def isWithinTradingHours (cfg : TCConfig) (now : Clock) : Bool :=
  !cfg.thEnabled || (decide (cfg.thStart ≤ now.hour) && decide (now.hour < cfg.thEnd))

/-- `TimingController.isWeekend` (false whenever weekend avoidance is
disabled). -/
def isWeekend (cfg : TCConfig) (now : Clock) : Bool :=
  cfg.avoidWeekends && (decide (now.day = 0) || decide (now.day = 6))

/-- `TimingController.checkEmergencyOverride`: returns the decision and
the new `lastRecordedPrice` (the function records the price when unset
and when the jump is below threshold; a `0` recorded price counts as
unset by JS truthiness).  `priceData` is the observed price, `none`
when no price data was passed. -/
def checkEmergencyOverride (cfg : TCConfig) (last : Option Rat) (priceData : Option Rat)
    (actionType : String) : Bool × Option Rat :=
  if !cfg.emergencyOverride.enabled || priceData.isNone then (false, last)
  else if cfg.emergencyOverride.allowSellOnly && decide (actionType ≠ "sell") then (false, last)
  else
    let price := priceData.getD 0
    if !truthyQ last then (false, some price)
    else
      let lastP := last.getD 0
      if cfg.emergencyOverride.priceJumpThreshold ≤ (price - lastP) / lastP then (true, last)
      else (false, some price)

/-- `TimingController.isTradingAllowed`: emergency override first, then
weekend avoidance, then trading hours. -/
def isTradingAllowed (cfg : TCConfig) (last : Option Rat) (now : Clock)
    (priceData : Option Rat) (actionType : String) : Bool × Option Rat :=
  if !cfg.enabled then (true, last)
  else
    let eo := checkEmergencyOverride cfg last priceData actionType
    if eo.1 then (true, eo.2)
    else if isWeekend cfg now then (false, eo.2)
    else if !isWithinTradingHours cfg now then (false, eo.2)
    else (true, eo.2)

/-- Claim C7: with the gate enabled, in a blocked period (weekend with
avoidance, or outside trading hours) any action whose emergency check
comes back negative is denied — in particular both buy and sell; and
when the recorded price is set, the observed price has jumped by at
least the threshold fraction, and `allowSellOnly` is on, a sell is
allowed through the override while a buy in the same blocked period is
still denied. -/
theorem c7_timing_gate (cfg : TCConfig) (last : Option Rat) (now : Clock)
    (priceData : Option Rat) (L p : Rat)
    (hen : cfg.enabled = true)
    (hblocked : isWeekend cfg now = true ∨ isWithinTradingHours cfg now = false) :
    (∀ actionType : String,
      (checkEmergencyOverride cfg last priceData actionType).1 = false →
      (isTradingAllowed cfg last now priceData actionType).1 = false) ∧
    (cfg.emergencyOverride.enabled = true → cfg.emergencyOverride.allowSellOnly = true →
      last = some L → L ≠ 0 → priceData = some p →
      cfg.emergencyOverride.priceJumpThreshold ≤ (p - L) / L →
      (isTradingAllowed cfg last now priceData "sell").1 = true ∧
      (isTradingAllowed cfg last now priceData "buy").1 = false) := by
  have hdeny : ∀ actionType : String,
      (checkEmergencyOverride cfg last priceData actionType).1 = false →
      (isTradingAllowed cfg last now priceData actionType).1 = false := by
    intro actionType heo
    rw [isTradingAllowed, hen]
    simp only [Bool.not_true, Bool.false_eq_true, if_false]
    rw [heo]
    simp only [Bool.false_eq_true, if_false]
    rcases hblocked with hw | hh
    · rw [hw]
      simp
    · rw [hh]
      simp
  refine ⟨hdeny, ?_⟩
  intro heoen hsellonly hlast hL0 hpd hjump
  constructor
  · have heo : (checkEmergencyOverride cfg last priceData "sell").1 = true := by
      rw [checkEmergencyOverride, heoen, hpd, hsellonly, hlast]
      simp [truthyQ, hL0, hjump]
    rw [isTradingAllowed, hen]
    simp only [Bool.not_true, Bool.false_eq_true, if_false]
    rw [heo]
    simp
  · apply hdeny
    rw [checkEmergencyOverride, heoen, hpd, hsellonly]
    simp

/-- Witness for `c7_timing_gate`: default config, 3 AM on a Tuesday
(outside 7-23 trading hours), last recorded price 100, observed 120
(a 20% jump over the 15% threshold). -/
theorem c7_timing_gate_witness :
    isWithinTradingHours ⟨true, true, 7, 23, true, ⟨true, 15/100, true⟩⟩ ⟨3, 2⟩ = false ∧
    (100 : Rat) ≠ 0 ∧ (15/100 : Rat) ≤ (120 - 100) / 100 ∧
    (isTradingAllowed ⟨true, true, 7, 23, true, ⟨true, 15/100, true⟩⟩ (some 100) ⟨3, 2⟩
      (some 120) "sell").1 = true ∧
    (isTradingAllowed ⟨true, true, 7, 23, true, ⟨true, 15/100, true⟩⟩ (some 100) ⟨3, 2⟩
      (some 120) "buy").1 = false := by
  have hblocked : isWithinTradingHours
      ⟨true, true, 7, 23, true, ⟨true, 15/100, true⟩⟩ ⟨3, 2⟩ = false := rfl
  have hjump : (15/100 : Rat) ≤ ((120 : Rat) - 100) / 100 := by norm_num
  have h := (c7_timing_gate ⟨true, true, 7, 23, true, ⟨true, 15/100, true⟩⟩ (some 100) ⟨3, 2⟩
    (some 120) 100 120 rfl (Or.inr hblocked)).2 rfl rfl rfl (by norm_num) rfl hjump
  exact ⟨hblocked, by norm_num, hjump, h.1, h.2⟩

/-- Buying-trigger configuration of `BTCBuyingSystem` (the fields
`checkBuyingConditions` reads). -/
structure BuyerConfig where
  triggersEnabled : Bool
  priceThreshold : Rat
  percentageDrop : Rat
  minimumGapBetweenBuys : Int
  postSellDropThreshold : Rat
  maxBuyAmount : Rat
  maxDailyBuying : Rat
  minAccountBalance : Rat
  maxBtcHolding : Rat
  maxDailyBuyTrades : Nat
  supportLevelBuying : Bool
  supportLevels : List Rat

/-- The condition record `checkBuyingConditions` assembles. -/
structure BuyConditions where
  priceThreshold : Bool
  percentageDrop : Bool
  sufficientBalance : Bool
  withinDailyLimit : Bool
  timingOk : Bool
  belowMaxHolding : Bool
  supportLevel : Bool
  postSellThreshold : Bool
deriving DecidableEq

/-- Result of `checkBuyingConditions`: the conditions, the buy
decision, and the updated session recent high. -/
structure BuyCheckResult where
  conditions : BuyConditions
  shouldBuy : Bool
  newRecentHigh : Rat
deriving DecidableEq

/-- `BTCBuyingSystem.checkBuyingConditions`: trigger disjunction
(price threshold, percentage drop from recent high, support level)
conjoined with balance, daily-limit, timing, holding-cap, and
post-sell-drop requirements; with no recorded sell
(`lastSellPrice === null`) the post-sell condition is forced false. -/
def checkBuyingConditions (cfg : BuyerConfig)
    (price recentHigh availableGbp currentBtcHolding todaysBuying : Rat)
    (todaysTradeCount : Nat) (now lastBuyTime : Int)
    (lastSellPrice : Option Rat) : BuyCheckResult :=
  let rh := if recentHigh < price then price else recentHigh
  let ct : BuyConditions :=
    { priceThreshold := cfg.triggersEnabled && decide (price ≤ cfg.priceThreshold)
      percentageDrop := decide (0 < rh) && decide (cfg.percentageDrop ≤ (rh - price) / rh * 100)
      sufficientBalance := decide (cfg.maxBuyAmount + cfg.minAccountBalance ≤ availableGbp)
      withinDailyLimit := decide (todaysBuying + cfg.maxBuyAmount ≤ cfg.maxDailyBuying) &&
        decide (todaysTradeCount < cfg.maxDailyBuyTrades)
      timingOk := decide (cfg.minimumGapBetweenBuys ≤ now - lastBuyTime)
      belowMaxHolding := decide (currentBtcHolding < cfg.maxBtcHolding)
      supportLevel := cfg.supportLevelBuying &&
        cfg.supportLevels.any (fun lv => decide (|price - lv| ≤ lv * (1/100)))
      postSellThreshold :=
        match lastSellPrice with
        | some sp => decide (cfg.postSellDropThreshold ≤ sp - price)
        | none => false }
  { conditions := ct
    shouldBuy := (ct.priceThreshold || ct.percentageDrop || ct.supportLevel) &&
      ct.sufficientBalance && ct.withinDailyLimit && ct.timingOk && ct.belowMaxHolding &&
      ct.postSellThreshold
    newRecentHigh := rh }

/-- Claim C8: when no sell has ever occurred (`lastSellPrice` null),
`checkBuyingConditions` returns `shouldBuy = false` for every price,
balance, limit, and trigger state. -/
theorem c8_no_sell_disables_buying (cfg : BuyerConfig)
    (price recentHigh availableGbp currentBtcHolding todaysBuying : Rat)
    (todaysTradeCount : Nat) (now lastBuyTime : Int) :
    (checkBuyingConditions cfg price recentHigh availableGbp currentBtcHolding todaysBuying
      todaysTradeCount now lastBuyTime none).shouldBuy = false := by
  simp [checkBuyingConditions]
